import Mathlib

/-!
Shallow embedding of the Sudoku solver in `src/main.rs` (crossword_solver-rs),
with verification of the specification claims.

Modelling conventions:
* `u16` cell bitsets become `Nat` with explicit masking where the Rust code
  wraps (`!x` on `u16` is `x ^^^ 65535`); the Rust code never overflows a
  shift on the inputs it uses.
* The cell array `[Cell; 81]` becomes a total function `Nat → Cell` read and
  written through the same linear addresses the Rust code uses; the Rust
  code only ever indexes addresses below 81 (out-of-range access in Rust
  would abort the program and is unreachable in the verified operations).
* `HashSet<BoardIdx>` becomes a `List BoardIdx` with set-style insertion and
  membership; itertools' `unique()` becomes `uniqueList` (keeps first
  occurrences).
* `Result<(), ()>` from `verify` becomes `Bool` (`true` = `Ok(())`).
* The recursive `solve` is embedded with an explicit fuel parameter
  (`solveAux`); `solve` runs it with fuel 82, which is shown sufficient
  because every recursive call strictly decreases the number of unplayed
  cells (of which there are at most 81).
* rayon's `find_map_any` is modelled by the sequential first-success
  `List.findSome?`, a deterministic refinement of the parallel search.
-/

/-- A cell: the nth bit records whether digit `n` is still possible
(`struct Cell(u16)`). -/
abbrev Cell := Nat

namespace Cell

/-- `Cell::fixed(num)`: the singleton set `{num}` (`1 << num`). -/
def fixed (num : Nat) : Cell := 1 <<< num

/-- `Cell::any_possible()`: `u16::MAX`. -/
def any_possible : Cell := 65535

/-- `Cell::none_possible()`: `0`. -/
def none_possible : Cell := 0

/-- `Cell::important_bits()`: the representation masked to bits 1 through 9
(`self.0 & 0b1111111110`). -/
def important_bits (c : Cell) : Nat := c &&& 1022

/-- `Cell::is_possible(num)`: `(self.0 >> num) & 1 == 1`. -/
def is_possible (c : Cell) (num : Nat) : Bool := (c >>> num) &&& 1 == 1

/-- `Cell::set_possible(num, possible)`; for `possible = false` the Rust code
computes `self.0 & !(1 << num)` on `u16`, i.e. masks with the 16-bit
complement. -/
def set_possible (c : Cell) (num : Nat) (possible : Bool) : Cell :=
  if possible then c ||| (1 <<< num) else c &&& ((1 <<< num) ^^^ 65535)

/-- `Cell::possibilities()`: the ascending list of possible digits in `1..10`. -/
def possibilities (c : Cell) : List Nat :=
  (List.range' 1 9).filter (fun num => c.is_possible num)

/-- `Cell::num_possibilities()`. -/
def num_possibilities (c : Cell) : Nat := c.possibilities.length

/-- The `PartialEq` instance on `Cell`: equality of the important bits. -/
def cellEq (a b : Cell) : Prop := a.important_bits = b.important_bits

instance (a b : Cell) : Decidable (cellEq a b) := by
  unfold cellEq; infer_instance

end Cell

/-- `enum SquareIdx`: the nine 3×3 blocks. -/
inductive SquareIdx where
  | TL | TM | TR | ML | MM | MR | BL | BM | BR
deriving DecidableEq, Repr

/-- Linear board index (`struct BoardIdx`): column, row, and the derived
linear address. The Rust type's only constructor sets `idx = col + row * 9`. -/
structure BoardIdx where
  col : Nat
  row : Nat
  idx : Nat
deriving DecidableEq, Repr

/-- `BoardIdx::new`. -/
def BoardIdx.new (col row : Nat) : BoardIdx :=
  { col := col, row := row, idx := col + row * 9 }

namespace SquareIdx

/-- `SquareIdx::to_idx`. -/
def to_idx : SquareIdx → Nat
  | TL => 0 | TM => 1 | TR => 2
  | ML => 3 | MM => 4 | MR => 5
  | BL => 6 | BM => 7 | BR => 8

/-- `SquareIdx::from_idx`; the Rust code aborts on indices above 8, which it
never passes (callers use `0..9`), so that case is mapped to `TL`. -/
def from_idx : Nat → SquareIdx
  | 0 => TL | 1 => TM | 2 => TR
  | 3 => ML | 4 => MM | 5 => MR
  | 6 => BL | 7 => BM | _ => BR

/-- `SquareIdx::to_topleft_cell`. -/
def to_topleft_cell : SquareIdx → BoardIdx
  | TL => BoardIdx.new 0 0
  | TM => BoardIdx.new 3 0
  | TR => BoardIdx.new 6 0
  | ML => BoardIdx.new 0 3
  | MM => BoardIdx.new 3 3
  | MR => BoardIdx.new 6 3
  | BL => BoardIdx.new 0 6
  | BM => BoardIdx.new 3 6
  | BR => BoardIdx.new 6 6

end SquareIdx

/-- `BoardIdx::square`: the containing block, from `(col / 3, row / 3)`; the
Rust code is unreachable for coordinates at or above 9 (it aborts), and it is
only ever called on coordinates below 9. -/
def BoardIdx.square (i : BoardIdx) : SquareIdx :=
  match i.col / 3, i.row / 3 with
  | 0, 0 => SquareIdx.TL
  | 1, 0 => SquareIdx.TM
  | 2, 0 => SquareIdx.TR
  | 0, 1 => SquareIdx.ML
  | 1, 1 => SquareIdx.MM
  | 2, 1 => SquareIdx.MR
  | 0, 2 => SquareIdx.BL
  | 1, 2 => SquareIdx.BM
  | _, _ => SquareIdx.BR

/-- `struct Board`: 81 cells plus the set of played addresses. -/
structure Board where
  cells : Nat → Cell
  played : List BoardIdx

/-- `Board::new()`. -/
def Board.new : Board := { cells := fun _ => Cell.any_possible, played := [] }

/-- `Board::get`. -/
def Board.get (b : Board) (i : BoardIdx) : Cell := b.cells i.idx

/-- `Board::set_raw` (also standing in for `get_mut` followed by a write). -/
def Board.set_raw (b : Board) (i : BoardIdx) (c : Cell) : Board :=
  { b with cells := Function.update b.cells i.idx c }

/-- `Board::iter_square`: the nine addresses of a block; the Rust code maps
array position `k` to column `k / 3` and row `k % 3` relative to the block's
top-left cell. -/
def iter_square (square : SquareIdx) : List BoardIdx :=
  let offset := square.to_topleft_cell
  (List.range 9).map (fun k => BoardIdx.new (k / 3 + offset.col) (k % 3 + offset.row))

/-- `Board::iter_col`. -/
def iter_col (col : Nat) : List BoardIdx :=
  (List.range 9).map (fun row => BoardIdx.new col row)

/-- `Board::iter_row`. -/
def iter_row (row : Nat) : List BoardIdx :=
  (List.range 9).map (fun col => BoardIdx.new col row)

/-- itertools `unique()`: deduplicate, keeping first occurrences. -/
def unique_aux (seen : List BoardIdx) : List BoardIdx → List BoardIdx
  | [] => []
  | x :: xs => if x ∈ seen then unique_aux seen xs else x :: unique_aux (x :: seen) xs

/-- itertools `unique()` applied to a list of addresses. -/
def uniqueList (l : List BoardIdx) : List BoardIdx := unique_aux [] l

/-- The deduplicated union of the block, column and row of `i`, in the order
the Rust code chains them. -/
def peersList (i : BoardIdx) : List BoardIdx :=
  uniqueList (iter_square i.square ++ iter_col i.col ++ iter_row i.row)

/-- `Board::play_cell`: insert into `played`, set the cell to the singleton,
and clear the digit from every other cell of the block/column/row union. -/
def Board.play_cell (b : Board) (i : BoardIdx) (num : Nat) : Board :=
  let b1 : Board :=
    { b with played := if i ∈ b.played then b.played else i :: b.played }
  let b2 := b1.set_raw i (Cell.fixed num)
  (peersList i).foldl
    (fun acc j =>
      if j = i then acc else acc.set_raw j ((acc.get j).set_possible num false))
    b2

/-- The 27 groups in the order `verify` scans them: 9 columns, 9 rows,
9 blocks. -/
def groupList : List (List BoardIdx) :=
  ((List.range 9).map iter_col) ++ ((List.range 9).map iter_row)
    ++ ((List.range 9).map (fun s => iter_square (SquareIdx.from_idx s)))

/-- The inner loop of `Board::verify` over one group: `seen` is the set of
singleton digits already encountered; a cell with no possibilities, or a
singleton digit already seen, fails the check. -/
def checkGroupAux (b : Board) (seen : List Nat) : List BoardIdx → Bool
  | [] => true
  | i :: rest =>
    match (b.get i).possibilities with
    | [] => false
    | [num] => if num ∈ seen then false else checkGroupAux b (num :: seen) rest
    | _ => checkGroupAux b seen rest

/-- One group check of `Board::verify`, starting from an empty `seen` set. -/
def checkGroup (b : Board) (g : List BoardIdx) : Bool := checkGroupAux b [] g

/-- `Board::verify`: `true` models `Ok(())`, `false` models `Err(())`. -/
def Board.verify (b : Board) : Bool := groupList.all (checkGroup b)

/-- The order in which `solve` visits the 81 addresses:
`iproduct!(0..9, 0..9)` yields `(col, row)` with `col` outermost, so the scan
walks each column top to bottom, columns left to right (column-major). -/
def visitOrder : List BoardIdx :=
  (List.range 9).flatMap (fun col => (List.range 9).map (fun row => BoardIdx.new col row))

/-- The row-major enumeration of the 81 addresses (rows outermost), as used
by `Board::from_str`'s nested `for row { for col }` loops. -/
def rowMajorOrder : List BoardIdx :=
  (List.range 9).flatMap (fun row => (List.range 9).map (fun col => BoardIdx.new col row))

/-- `usize::MAX`, the initial value of `least_possibilities`. -/
def usize_max : Nat := 2 ^ 64 - 1

/-- The scanning loop of `solve`: skip played cells, fail on a cell with no
possibilities, commit forced cells immediately, and track the unplayed cell
with the fewest possibilities seen so far (strict improvement only, so the
first occurrence wins). Returns `none` for the early `return None`, otherwise
the mutated board together with the tracked cell and count. -/
def scanAux (b : Board) (least_cell : Option BoardIdx) (least_count : Nat) :
    List BoardIdx → Option (Board × Option BoardIdx × Nat)
  | [] => some (b, least_cell, least_count)
  | i :: rest =>
    if i ∈ b.played then
      scanAux b least_cell least_count rest
    else
      let p := (b.get i).num_possibilities
      if p = 0 then none
      else if p = 1 then
        scanAux (b.play_cell i ((b.get i).possibilities.headD 0)) least_cell least_count rest
      else if least_count > p then scanAux b (some i) p rest
      else scanAux b least_cell least_count rest

/-- `solve`, with explicit fuel standing for the recursion (each recursive
call strictly increases the played set, so fuel 82 never runs out; see the
termination theorem). `find_map_any` over the candidate digits is modelled by
the sequential `List.findSome?`. -/
def solveAux : Nat → Board → Option Board
  | 0, _ => none
  | fuel + 1, b =>
    if b.verify then
      match scanAux b none usize_max visitOrder with
      | none => none
      | some (b', none, _) => some b'
      | some (b', some next, _) =>
        ((b'.get next).possibilities).findSome?
          (fun possibility => solveAux fuel (b'.play_cell next possibility))
    else none

/-- `solve`. -/
def solve (b : Board) : Option Board := solveAux 82 b

/-- The branch target of one `solve` call: the tracked minimum-possibility
cell of the scan, when the scan completes and branching is needed. -/
def branchCell (b : Board) : Option BoardIdx :=
  (scanAux b none usize_max visitOrder).bind (fun r => r.2.1)

/-- The character classification of `Board::from_str`: the Rust code matches
`c.to_ascii_lowercase()` against the literal arms `'1'` through `'9'`
(yielding that digit) and `'x'` (yielding the empty-cell marker `-1`),
dropping everything else; lowercasing only affects the letters, so the
digit arms are equivalently the range test below and the `'x'` arm matches
exactly `'x'` and `'X'`. -/
def charToClue (c : Char) : Option Int :=
  if c = 'x' ∨ c = 'X' then some (-1)
  else if '1' ≤ c ∧ c ≤ '9' then some (Int.ofNat (c.toNat - 48))
  else none

/-- `Board::from_str`: the clue stream is the significant characters chained
with infinitely many `-1`s; the nested row/column loops take the next clue
for each address in row-major order and play it when it is a digit
(`u8::try_from` succeeds exactly on the non-negative values). -/
def from_str (s : List Char) : Board :=
  let cells : List Int := s.filterMap charToClue
  (rowMajorOrder.enum).foldl
    (fun b kv =>
      let t := cells.getD kv.1 (-1)
      if 0 ≤ t then b.play_cell kv.2 t.toNat else b)
    Board.new

/-- Modelled from the spec: the parsing contract as the spec words it — the
k-th of the first 81 digit/placeholder characters is the clue for the k-th
cell in row-major order (row `k / 9`, column `k % 9`); each digit clue is
applied with `play_cell`, while `x` placeholders and missing characters
leave the cell empty. -/
def fromStrSpec (s : List Char) : Board :=
  (List.range 81).foldl
    (fun b k =>
      let t := (s.filterMap charToClue).getD k (-1)
      if 0 ≤ t then b.play_cell (BoardIdx.new (k % 9) (k / 9)) t.toNat else b)
    Board.new

/-- Two addresses see each other: same row, same column, or same 3×3 block
(block identity for on-board coordinates is the pair `(col / 3, row / 3)`). -/
def peer (a p : BoardIdx) : Prop :=
  a.row = p.row ∨ a.col = p.col ∨ (a.col / 3 = p.col / 3 ∧ a.row / 3 = p.row / 3)

instance (a p : BoardIdx) : Decidable (peer a p) := by
  unfold peer; infer_instance

/-- The invariant every board built from `Board::new` by `play_cell` calls
satisfies: each played address is on the board, its cell is either exactly
the singleton bit pattern of some digit or has been wiped to zero, and while
the singleton survives, that digit has been cleared from every other cell of
its row, column and block. -/
def board_inv (b : Board) : Prop :=
  ∀ p ∈ b.played, p ∈ visitOrder ∧
    (b.get p = 0 ∨ ∃ d ∈ List.range' 1 9, b.get p = Cell.fixed d ∧
      ∀ j ∈ visitOrder, peer j p → j ≠ p → (b.get j).is_possible d = false)

instance (b : Board) : Decidable (board_inv b) := by
  unfold board_inv; infer_instance

/-- A fully, validly solved board: every one of the 81 cells is played and
holds a committed singleton digit, and each of the 27 groups contains each
digit 1–9 exactly once. -/
def solved_board (b : Board) : Prop :=
  (∀ i ∈ visitOrder, i ∈ b.played ∧ ∃ d ∈ List.range' 1 9, b.get i = Cell.fixed d) ∧
  ∀ g ∈ groupList, ∀ d ∈ List.range' 1 9,
    (g.countP (fun i => (b.get i).possibilities == [d])) = 1

instance (b : Board) : Decidable (solved_board b) := by
  unfold solved_board; infer_instance

/-- The number of on-board addresses not yet played. -/
def unplayed_count (b : Board) : Nat :=
  visitOrder.countP (fun i => !(decide (i ∈ b.played)))

/-- The visit-time possibility counts recorded by the scan: for each cell
that is unplayed when the scan reaches it and has two or more candidates at
that moment, the pair of the cell and that count, in scan (column-major)
order; forced cells are committed exactly as in `scanAux`. -/
def scanTraceAux (b : Board) : List BoardIdx → List (BoardIdx × Nat)
  | [] => []
  | i :: rest =>
    if i ∈ b.played then scanTraceAux b rest
    else
      let p := (b.get i).num_possibilities
      if p = 0 then []
      else if p = 1 then
        scanTraceAux (b.play_cell i ((b.get i).possibilities.headD 0)) rest
      else (i, p) :: scanTraceAux b rest

/-- The first entry attaining the minimum count, if any. -/
def argminFirst : List (BoardIdx × Nat) → Option BoardIdx
  | [] => none
  | e :: t =>
    (List.find? (fun z => z.2 == (t.map Prod.snd).foldl min e.2) (e :: t)).map Prod.fst

/-- Modelled from the spec: the branching rule as the claim states it — the
unplayed cell with the fewest remaining candidates, ties broken by first
occurrence in row-major scan order. -/
def rowMajorMinCell (b : Board) : Option BoardIdx :=
  argminFirst (rowMajorOrder.filterMap (fun i =>
    if i ∈ b.played then none
    else if 2 ≤ (b.get i).num_possibilities then
      some (i, (b.get i).num_possibilities)
    else none))

/-- A complete valid Sudoku grid, row by row. -/
def sDigits : List Nat := [
 1,2,3,4,5,6,7,8,9,
 4,5,6,7,8,9,1,2,3,
 7,8,9,1,2,3,4,5,6,
 2,3,4,5,6,7,8,9,1,
 5,6,7,8,9,1,2,3,4,
 8,9,1,2,3,4,5,6,7,
 3,4,5,6,7,8,9,1,2,
 6,7,8,9,1,2,3,4,5,
 9,1,2,3,4,5,6,7,8]

/-- The fully played board holding `sDigits`. -/
def solvedBoard : Board :=
  { cells := fun n => Cell.fixed (sDigits.getD n 1), played := visitOrder }

/-- Another complete valid grid (the digit relabelling 1→5→7→1 of `sDigits`),
chosen so that cell (0,0) holds 5 and cell (1,1) holds 7. -/
def cexDigits : List Nat := [
 5,2,3,4,7,6,1,8,9,
 4,7,6,1,8,9,5,2,3,
 1,8,9,5,2,3,4,7,6,
 2,3,4,7,6,1,8,9,5,
 7,6,1,8,9,5,2,3,4,
 8,9,5,2,3,4,7,6,1,
 3,4,7,6,1,8,9,5,2,
 6,1,8,9,5,2,3,4,7,
 9,5,2,3,4,7,6,1,8]

/-- Cell values for `B0cex`: the `cexDigits` singletons, except that address
0 holds the raw candidate set `{5}` (value 32) and address 1 holds `{5, 7}`
(value 160). -/
def cexCells : List Nat := ((cexDigits.map Cell.fixed).set 0 32).set 1 160

/-- A board that passes `verify` yet drives `solve` to return an invalid
board: all cells but addresses 0 and 1 are played singletons of a valid
grid, address 0 is an unplayed forced `{5}`, address 1 an unplayed `{5, 7}`.
The scan commits 5 at address 0 (clearing 5 from address 1), then commits 7
at address 1, wiping the played 7s at addresses 10 and 4. -/
def B0cex : Board :=
  { cells := fun n => cexCells.getD n 0,
    played := visitOrder.filter (fun i => !(i.idx == 0) && !(i.idx == 1)) }

/-- Cell values for `Bc`: the `sDigits` singletons, except that addresses 1
and 9 hold the two-candidate set `{1, 2}` (value 6). -/
def bcCells : List Nat := ((sDigits.map Cell.fixed).set 1 6).set 9 6

/-- A board with exactly two unplayed cells, at addresses 1 (row 0, col 1)
and 9 (row 1, col 0), both with two candidates: a tie for the branching
heuristic that separates row-major from column-major tie-breaking. -/
def Bc : Board :=
  { cells := fun n => bcCells.getD n 0,
    played := visitOrder.filter (fun i => !(i.idx == 1) && !(i.idx == 9)) }

theorem is_possible_eq_testBit (c num : Nat) :
    Cell.is_possible c num = Nat.testBit c num := by
  unfold Cell.is_possible Nat.testBit
  rw [Nat.and_one_is_mod, Nat.one_and_eq_mod_two]
  rcases Nat.mod_two_eq_zero_or_one (c >>> num) with h | h <;> simp [h]

theorem testBit_important_bits (c i : Nat) :
    (Cell.important_bits c).testBit i = (c.testBit i && decide (1 ≤ i ∧ i ≤ 9)) := by
  unfold Cell.important_bits
  rw [Nat.testBit_and]
  congr 1
  by_cases h : i ≤ 9
  · interval_cases i <;> decide
  · have hlt : (1022 : Nat) < 2 ^ i := by
      calc (1022 : Nat) < 2 ^ 10 := by norm_num
        _ ≤ 2 ^ i := Nat.pow_le_pow_right (by norm_num) (by omega)
    rw [Nat.testBit_lt_two_pow hlt]
    symm
    simp only [decide_eq_false_iff_not]
    omega

/-- C9: two possibility-set cells are equal (in the `PartialEq` sense of the
code) exactly when they agree on the possibility of every digit 1–9, and
flipping bit 0 or any of bits 10–15 never influences equality. -/
theorem c9_cell_equality (a b : Cell) :
    (Cell.cellEq a b ↔
      ∀ num, 1 ≤ num → num ≤ 9 → Cell.is_possible a num = Cell.is_possible b num) ∧
    (∀ k, k = 0 ∨ (10 ≤ k ∧ k ≤ 15) → Cell.cellEq (a ^^^ (1 <<< k)) a) := by
  constructor
  · unfold Cell.cellEq
    constructor
    · intro h num h1 h9
      have ha := testBit_important_bits a num
      have hb := testBit_important_bits b num
      rw [is_possible_eq_testBit, is_possible_eq_testBit]
      have hd : decide (1 ≤ num ∧ num ≤ 9) = true := by simp [h1, h9]
      rw [hd, Bool.and_true] at ha hb
      rw [← ha, ← hb, h]
    · intro h
      apply Nat.eq_of_testBit_eq
      intro i
      rw [testBit_important_bits, testBit_important_bits]
      by_cases hi : 1 ≤ i ∧ i ≤ 9
      · have := h i hi.1 hi.2
        rw [is_possible_eq_testBit, is_possible_eq_testBit] at this
        rw [this]
      · simp [hi]
  · intro k hk
    unfold Cell.cellEq
    apply Nat.eq_of_testBit_eq
    intro i
    rw [testBit_important_bits, testBit_important_bits, Nat.testBit_xor,
      Nat.shiftLeft_eq, one_mul, Nat.testBit_two_pow]
    by_cases hi : 1 ≤ i ∧ i ≤ 9
    · have : k ≠ i := by omega
      simp [this]
    · simp [hi]

theorem c9_cell_equality_witness : Cell.cellEq 6 1030 :=
  (c9_cell_equality 6 1030).1.mpr (by decide)

theorem is_possible_fixed (d k : Nat) :
    Cell.is_possible (Cell.fixed d) k = decide (d = k) := by
  rw [is_possible_eq_testBit]
  unfold Cell.fixed
  rw [Nat.shiftLeft_eq, one_mul, Nat.testBit_two_pow]

theorem set_possible_false_idem (x num : Nat) :
    Cell.set_possible (Cell.set_possible x num false) num false
      = Cell.set_possible x num false := by
  unfold Cell.set_possible
  simp [Nat.and_assoc]

theorem is_possible_set_false_self (x num : Nat) (h : num ≤ 15) :
    Cell.is_possible (Cell.set_possible x num false) num = false := by
  unfold Cell.set_possible
  simp only [Bool.false_eq_true, if_false]
  rw [is_possible_eq_testBit, Nat.testBit_and, Nat.testBit_xor,
    Nat.shiftLeft_eq, one_mul, Nat.testBit_two_pow]
  have h65535 : Nat.testBit 65535 num = true := by
    have : (65535 : Nat) = 2 ^ 16 - 1 := by norm_num
    rw [this, Nat.testBit_two_pow_sub_one]
    simp; omega
  simp [h65535]

theorem is_possible_set_false_other (x num d : Nat) (hd : d ≤ 15) (hne : d ≠ num) :
    Cell.is_possible (Cell.set_possible x num false) d = Cell.is_possible x d := by
  unfold Cell.set_possible
  simp only [Bool.false_eq_true, if_false]
  rw [is_possible_eq_testBit, is_possible_eq_testBit, Nat.testBit_and, Nat.testBit_xor,
    Nat.shiftLeft_eq, one_mul, Nat.testBit_two_pow]
  have h65535 : Nat.testBit 65535 d = true := by
    have : (65535 : Nat) = 2 ^ 16 - 1 := by norm_num
    rw [this, Nat.testBit_two_pow_sub_one]
    simp; omega
  have : decide (num = d) = false := by simp; omega
  simp [h65535, this]

theorem is_possible_set_false_mono (x num d : Nat) :
    Cell.is_possible (Cell.set_possible x num false) d = true →
      Cell.is_possible x d = true := by
  unfold Cell.set_possible
  simp only [Bool.false_eq_true, if_false]
  rw [is_possible_eq_testBit, is_possible_eq_testBit, Nat.testBit_and]
  intro h
  exact (Bool.and_eq_true_iff.mp h).1

theorem possibilities_fixed (d : Nat) (h1 : 1 ≤ d) (h9 : d ≤ 9) :
    Cell.possibilities (Cell.fixed d) = [d] := by
  interval_cases d <;> decide

theorem get_set_raw (b : Board) (j k : BoardIdx) (c : Cell) :
    (b.set_raw j c).get k = if k.idx = j.idx then c else b.get k := by
  unfold Board.set_raw Board.get
  simp [Function.update_apply]

theorem played_set_raw (b : Board) (j : BoardIdx) (c : Cell) :
    (b.set_raw j c).played = b.played := rfl

theorem mem_unique_aux (x : BoardIdx) :
    ∀ (l seen : List BoardIdx), x ∈ unique_aux seen l ↔ x ∈ l ∧ x ∉ seen := by
  intro l
  induction l with
  | nil => intro seen; simp [unique_aux]
  | cons e rest ih =>
    intro seen
    unfold unique_aux
    by_cases he : e ∈ seen
    · rw [if_pos he, ih]
      constructor
      · rintro ⟨hr, hs⟩
        exact ⟨List.mem_cons_of_mem _ hr, hs⟩
      · rintro ⟨hm, hs⟩
        rcases List.mem_cons.mp hm with rfl | hr
        · exact absurd he hs
        · exact ⟨hr, hs⟩
    · rw [if_neg he]
      simp only [List.mem_cons, ih]
      constructor
      · rintro (rfl | ⟨hr, hs⟩)
        · exact ⟨Or.inl rfl, he⟩
        · exact ⟨Or.inr hr, fun h => hs (Or.inr h)⟩
      · rintro ⟨rfl | hr, hs⟩
        · exact Or.inl rfl
        · by_cases hx : x = e
          · exact Or.inl hx
          · exact Or.inr ⟨hr, by simp [hx, hs]⟩

theorem mem_uniqueList (x : BoardIdx) (l : List BoardIdx) :
    x ∈ uniqueList l ↔ x ∈ l := by
  unfold uniqueList
  rw [mem_unique_aux]
  simp

theorem foldClear_cells (i : BoardIdx) (num : Nat) :
    ∀ (l : List BoardIdx) (b : Board) (n : Nat),
      ((l.foldl (fun acc j => if j = i then acc
          else acc.set_raw j ((acc.get j).set_possible num false)) b).cells n) =
      if ∃ j ∈ l, j ≠ i ∧ j.idx = n
      then Cell.set_possible (b.cells n) num false
      else b.cells n := by
  intro l
  induction l with
  | nil => intro b n; simp
  | cons e rest ih =>
    intro b n
    simp only [List.foldl_cons]
    by_cases he : e = i
    · rw [if_pos he, ih]
      have hiff : (∃ j ∈ rest, j ≠ i ∧ j.idx = n) ↔ (∃ j ∈ e :: rest, j ≠ i ∧ j.idx = n) := by
        constructor
        · rintro ⟨j, hj, hne, hidx⟩
          exact ⟨j, List.mem_cons_of_mem _ hj, hne, hidx⟩
        · rintro ⟨j, hj, hne, hidx⟩
          rcases List.mem_cons.mp hj with rfl | hj2
          · exact absurd he.symm (Ne.symm hne)
          · exact ⟨j, hj2, hne, hidx⟩
      by_cases hc : ∃ j ∈ rest, j ≠ i ∧ j.idx = n
      · rw [if_pos hc, if_pos (hiff.mp hc)]
      · rw [if_neg hc, if_neg (fun h => hc (hiff.mpr h))]
    · rw [if_neg he, ih]
      have hcells : (b.set_raw e ((b.get e).set_possible num false)).cells n
          = if e.idx = n then Cell.set_possible (b.cells n) num false else b.cells n := by
        unfold Board.set_raw Board.get
        simp only [Function.update_apply]
        by_cases hn : n = e.idx
        · subst hn; simp
        · rw [if_neg hn, if_neg (fun h => hn h.symm)]
      rw [hcells]
      by_cases hrest : ∃ j ∈ rest, j ≠ i ∧ j.idx = n
      · rw [if_pos hrest]
        obtain ⟨j, hj, hne, hidx⟩ := hrest
        have hcons : ∃ j ∈ e :: rest, j ≠ i ∧ j.idx = n :=
          ⟨j, List.mem_cons_of_mem _ hj, hne, hidx⟩
        by_cases hn : e.idx = n
        · rw [if_pos hn, set_possible_false_idem, if_pos hcons]
        · rw [if_neg hn, if_pos hcons]
      · rw [if_neg hrest]
        by_cases hn : e.idx = n
        · rw [if_pos hn, if_pos ⟨e, List.mem_cons_self e rest, he, hn⟩]
        · rw [if_neg hn, if_neg ?_]
          rintro ⟨j, hj, hne, hidx⟩
          rcases List.mem_cons.mp hj with rfl | hj2
          · exact hn hidx
          · exact hrest ⟨j, hj2, hne, hidx⟩

theorem foldClear_played (i : BoardIdx) (num : Nat) :
    ∀ (l : List BoardIdx) (b : Board),
      ((l.foldl (fun acc j => if j = i then acc
          else acc.set_raw j ((acc.get j).set_possible num false)) b).played) = b.played := by
  intro l
  induction l with
  | nil => intro b; rfl
  | cons e rest ih =>
    intro b
    simp only [List.foldl_cons]
    by_cases he : e = i
    · rw [if_pos he, ih]
    · rw [if_neg he, ih, played_set_raw]

theorem play_cell_played (b : Board) (i : BoardIdx) (num : Nat) :
    (b.play_cell i num).played = if i ∈ b.played then b.played else i :: b.played := by
  unfold Board.play_cell
  rw [foldClear_played, played_set_raw]

theorem mem_play_cell_played (b : Board) (i j : BoardIdx) (num : Nat) :
    j ∈ (b.play_cell i num).played ↔ j = i ∨ j ∈ b.played := by
  rw [play_cell_played]
  by_cases h : i ∈ b.played
  · rw [if_pos h]
    constructor
    · exact Or.inr
    · rintro (rfl | hj)
      · exact h
      · exact hj
  · rw [if_neg h]
    exact List.mem_cons

theorem play_cell_cells (b : Board) (i : BoardIdx) (num : Nat) (n : Nat) :
    (b.play_cell i num).cells n =
      if ∃ j ∈ peersList i, j ≠ i ∧ j.idx = n then
        Cell.set_possible (if n = i.idx then Cell.fixed num else b.cells n) num false
      else if n = i.idx then Cell.fixed num else b.cells n := by
  unfold Board.play_cell
  rw [foldClear_cells]
  have h2 : ∀ m, (Board.set_raw
      { b with played := if i ∈ b.played then b.played else i :: b.played }
      i (Cell.fixed num)).cells m = if m = i.idx then Cell.fixed num else b.cells m := by
    intro m
    unfold Board.set_raw
    simp [Function.update_apply]
  by_cases hc : ∃ j ∈ peersList i, j ≠ i ∧ j.idx = n
  · rw [if_pos hc, if_pos hc, h2]
  · rw [if_neg hc, if_neg hc, h2]

theorem new_inj (c r c' r' : Nat) :
    BoardIdx.new c r = BoardIdx.new c' r' ↔ c = c' ∧ r = r' := by
  unfold BoardIdx.new
  constructor
  · intro h
    injection h with h1 h2 h3
    exact ⟨h1, h2⟩
  · rintro ⟨rfl, rfl⟩
    rfl

theorem mem_visitOrder_new (c r : Nat) (hc : c < 9) (hr : r < 9) :
    BoardIdx.new c r ∈ visitOrder := by
  unfold visitOrder
  simp only [List.mem_flatMap, List.mem_map, List.mem_range]
  exact ⟨c, hc, r, hr, rfl⟩

theorem mem_visitOrder_iff (j : BoardIdx) :
    j ∈ visitOrder ↔ j.col < 9 ∧ j.row < 9 ∧ j.idx = j.col + j.row * 9 := by
  unfold visitOrder
  simp only [List.mem_flatMap, List.mem_map, List.mem_range]
  constructor
  · rintro ⟨c, hc, r, hr, rfl⟩
    exact ⟨hc, hr, rfl⟩
  · intro h
    cases j with
    | mk c r i =>
      simp only at h
      obtain ⟨hc, hr, hidx⟩ := h
      subst hidx
      exact ⟨c, hc, r, hr, rfl⟩

theorem visitOrder_dest (j : BoardIdx) (hj : j ∈ visitOrder) :
    ∃ c, c < 9 ∧ ∃ r, r < 9 ∧ j = BoardIdx.new c r := by
  rw [mem_visitOrder_iff] at hj
  obtain ⟨hc, hr, hidx⟩ := hj
  refine ⟨j.col, hc, j.row, hr, ?_⟩
  cases j with
  | mk c r i =>
    simp only at hidx
    subst hidx
    rfl

theorem mem_iter_col (j : BoardIdx) (col : Nat) :
    j ∈ iter_col col ↔ ∃ r, r < 9 ∧ j = BoardIdx.new col r := by
  unfold iter_col
  simp only [List.mem_map, List.mem_range]
  constructor
  · rintro ⟨r, hr, rfl⟩
    exact ⟨r, hr, rfl⟩
  · rintro ⟨r, hr, rfl⟩
    exact ⟨r, hr, rfl⟩

theorem mem_iter_row (j : BoardIdx) (row : Nat) :
    j ∈ iter_row row ↔ ∃ c, c < 9 ∧ j = BoardIdx.new c row := by
  unfold iter_row
  simp only [List.mem_map, List.mem_range]
  constructor
  · rintro ⟨c, hc, rfl⟩
    exact ⟨c, hc, rfl⟩
  · rintro ⟨c, hc, rfl⟩
    exact ⟨c, hc, rfl⟩

theorem square_topleft (c r : Nat) (hc : c < 9) (hr : r < 9) :
    (BoardIdx.new c r).square.to_topleft_cell
      = BoardIdx.new (3 * (c / 3)) (3 * (r / 3)) := by
  have h1 : c / 3 = 0 ∨ c / 3 = 1 ∨ c / 3 = 2 := by omega
  have h2 : r / 3 = 0 ∨ r / 3 = 1 ∨ r / 3 = 2 := by omega
  show (BoardIdx.square (BoardIdx.new c r)).to_topleft_cell = _
  unfold BoardIdx.square
  rcases h1 with h1 | h1 | h1 <;> rcases h2 with h2 | h2 | h2 <;>
    simp only [BoardIdx.new, h1, h2] <;> rfl

theorem mem_iter_square (c r c2 r2 : Nat) (hc : c < 9) (hr : r < 9)
    (hc2 : c2 < 9) (hr2 : r2 < 9) :
    (BoardIdx.new c2 r2 ∈ iter_square ((BoardIdx.new c r).square)) ↔
      (c2 / 3 = c / 3 ∧ r2 / 3 = r / 3) := by
  unfold iter_square
  rw [square_topleft c r hc hr]
  simp only [List.mem_map, List.mem_range, BoardIdx.new]
  constructor
  · rintro ⟨k, hk, heq⟩
    injection heq with e1 e2 e3
    omega
  · rintro ⟨e1, e2⟩
    refine ⟨3 * (c2 % 3) + r2 % 3, by omega, ?_⟩
    have g1 : (3 * (c2 % 3) + r2 % 3) / 3 + 3 * (c / 3) = c2 := by omega
    have g2 : (3 * (c2 % 3) + r2 % 3) % 3 + 3 * (r / 3) = r2 := by omega
    rw [g1, g2]

theorem mem_peersList_new (c r c2 r2 : Nat) (hc : c < 9) (hr : r < 9)
    (hc2 : c2 < 9) (hr2 : r2 < 9) :
    BoardIdx.new c2 r2 ∈ peersList (BoardIdx.new c r) ↔
      peer (BoardIdx.new c2 r2) (BoardIdx.new c r) := by
  unfold peersList
  rw [mem_uniqueList]
  simp only [List.mem_append]
  rw [mem_iter_square c r c2 r2 hc hr hc2 hr2]
  have hcol : (BoardIdx.new c2 r2 ∈ iter_col (BoardIdx.new c r).col) ↔ c2 = c := by
    rw [mem_iter_col]
    constructor
    · rintro ⟨r', hr', heq⟩
      exact ((new_inj _ _ _ _).mp heq).1
    · rintro rfl
      exact ⟨r2, hr2, rfl⟩
  have hrow : (BoardIdx.new c2 r2 ∈ iter_row (BoardIdx.new c r).row) ↔ r2 = r := by
    rw [mem_iter_row]
    constructor
    · rintro ⟨c', hc', heq⟩
      exact ((new_inj _ _ _ _).mp heq).2
    · rintro rfl
      exact ⟨c2, hc2, rfl⟩
  rw [hcol, hrow]
  unfold peer
  simp only [BoardIdx.new]
  tauto

theorem mem_peersList_valid (c r : Nat) (hc : c < 9) (hr : r < 9)
    (j : BoardIdx) (hj : j ∈ peersList (BoardIdx.new c r)) : j ∈ visitOrder := by
  unfold peersList at hj
  rw [mem_uniqueList] at hj
  simp only [List.mem_append] at hj
  rcases hj with (hj | hj) | hj
  · unfold iter_square at hj
    rw [square_topleft c r hc hr] at hj
    simp only [List.mem_map, List.mem_range, BoardIdx.new] at hj
    obtain ⟨k, hk, heq⟩ := hj
    subst heq
    exact mem_visitOrder_new _ _ (by omega) (by omega)
  · rw [mem_iter_col] at hj
    obtain ⟨r', hr', rfl⟩ := hj
    exact mem_visitOrder_new _ _ hc hr'
  · rw [mem_iter_row] at hj
    obtain ⟨c', hc', rfl⟩ := hj
    exact mem_visitOrder_new _ _ hc' hr

theorem topleft_bounds (sq : SquareIdx) :
    sq.to_topleft_cell.col % 3 = 0 ∧ sq.to_topleft_cell.col ≤ 6 ∧
    sq.to_topleft_cell.row % 3 = 0 ∧ sq.to_topleft_cell.row ≤ 6 := by
  cases sq <;> decide

theorem mem_iter_square_gen (sq : SquareIdx) (j : BoardIdx) :
    j ∈ iter_square sq ↔ ∃ k, k < 9 ∧
      j = BoardIdx.new (k / 3 + sq.to_topleft_cell.col) (k % 3 + sq.to_topleft_cell.row) := by
  unfold iter_square
  simp only [List.mem_map, List.mem_range]
  constructor
  · rintro ⟨k, hk, rfl⟩
    exact ⟨k, hk, rfl⟩
  · rintro ⟨k, hk, rfl⟩
    exact ⟨k, hk, rfl⟩

theorem mem_groupList (g : List BoardIdx) :
    g ∈ groupList ↔ (∃ c, c < 9 ∧ g = iter_col c) ∨ (∃ r, r < 9 ∧ g = iter_row r)
      ∨ (∃ s, s < 9 ∧ g = iter_square (SquareIdx.from_idx s)) := by
  unfold groupList
  simp only [List.mem_append, List.mem_map, List.mem_range]
  constructor
  · rintro ((⟨c, hc, rfl⟩ | ⟨r, hr, rfl⟩) | ⟨s, hs, rfl⟩)
    · exact Or.inl ⟨c, hc, rfl⟩
    · exact Or.inr (Or.inl ⟨r, hr, rfl⟩)
    · exact Or.inr (Or.inr ⟨s, hs, rfl⟩)
  · rintro (⟨c, hc, rfl⟩ | ⟨r, hr, rfl⟩ | ⟨s, hs, rfl⟩)
    · exact Or.inl (Or.inl ⟨c, hc, rfl⟩)
    · exact Or.inl (Or.inr ⟨r, hr, rfl⟩)
    · exact Or.inr ⟨s, hs, rfl⟩

theorem iter_col_facts (c : Nat) (hc : c < 9) :
    (∀ i ∈ iter_col c, i ∈ visitOrder) ∧ (iter_col c).Nodup ∧ (iter_col c).length = 9 ∧
      (∀ i ∈ iter_col c, ∀ j ∈ iter_col c, peer i j) := by
  refine ⟨?_, ?_, ?_, ?_⟩
  · intro i hi
    obtain ⟨r, hr, rfl⟩ := (mem_iter_col i c).mp hi
    exact mem_visitOrder_new c r hc hr
  · unfold iter_col
    refine List.Nodup.map_on ?_ (List.nodup_range 9)
    intro x hx y hy hxy
    exact ((new_inj _ _ _ _).mp hxy).2
  · unfold iter_col
    simp
  · intro i hi j hj
    obtain ⟨r1, hr1, rfl⟩ := (mem_iter_col i c).mp hi
    obtain ⟨r2, hr2, rfl⟩ := (mem_iter_col j c).mp hj
    exact Or.inr (Or.inl rfl)

theorem iter_row_facts (r : Nat) (hr : r < 9) :
    (∀ i ∈ iter_row r, i ∈ visitOrder) ∧ (iter_row r).Nodup ∧ (iter_row r).length = 9 ∧
      (∀ i ∈ iter_row r, ∀ j ∈ iter_row r, peer i j) := by
  refine ⟨?_, ?_, ?_, ?_⟩
  · intro i hi
    obtain ⟨c, hc, rfl⟩ := (mem_iter_row i r).mp hi
    exact mem_visitOrder_new c r hc hr
  · unfold iter_row
    refine List.Nodup.map_on ?_ (List.nodup_range 9)
    intro x hx y hy hxy
    exact ((new_inj _ _ _ _).mp hxy).1
  · unfold iter_row
    simp
  · intro i hi j hj
    obtain ⟨c1, hc1, rfl⟩ := (mem_iter_row i r).mp hi
    obtain ⟨c2, hc2, rfl⟩ := (mem_iter_row j r).mp hj
    exact Or.inl rfl

theorem iter_square_facts (sq : SquareIdx) :
    (∀ i ∈ iter_square sq, i ∈ visitOrder) ∧ (iter_square sq).Nodup ∧
      (iter_square sq).length = 9 ∧
      (∀ i ∈ iter_square sq, ∀ j ∈ iter_square sq, peer i j) := by
  obtain ⟨hc0, hc6, hr0, hr6⟩ := topleft_bounds sq
  refine ⟨?_, ?_, ?_, ?_⟩
  · intro i hi
    obtain ⟨k, hk, rfl⟩ := (mem_iter_square_gen sq i).mp hi
    exact mem_visitOrder_new _ _ (by omega) (by omega)
  · unfold iter_square
    refine List.Nodup.map_on ?_ (List.nodup_range 9)
    intro x hx y hy hxy
    have hx9 := List.mem_range.mp hx
    have hy9 := List.mem_range.mp hy
    rw [new_inj] at hxy
    omega
  · unfold iter_square
    simp
  · intro i hi j hj
    obtain ⟨k1, hk1, rfl⟩ := (mem_iter_square_gen sq i).mp hi
    obtain ⟨k2, hk2, rfl⟩ := (mem_iter_square_gen sq j).mp hj
    refine Or.inr (Or.inr ⟨?_, ?_⟩) <;>
      simp only [BoardIdx.new] <;> omega

theorem group_facts (g : List BoardIdx) (hg : g ∈ groupList) :
    (∀ i ∈ g, i ∈ visitOrder) ∧ g.Nodup ∧ g.length = 9 ∧
      (∀ i ∈ g, ∀ j ∈ g, peer i j) := by
  rcases (mem_groupList g).mp hg with ⟨c, hc, rfl⟩ | ⟨r, hr, rfl⟩ | ⟨s, hs, rfl⟩
  · exact iter_col_facts c hc
  · exact iter_row_facts r hr
  · exact iter_square_facts _

theorem exists_group_mem (j : BoardIdx) (hj : j ∈ visitOrder) :
    ∃ g ∈ groupList, j ∈ g := by
  obtain ⟨c, hc, r, hr, rfl⟩ := visitOrder_dest j hj
  refine ⟨iter_col c, (mem_groupList _).mpr (Or.inl ⟨c, hc, rfl⟩), ?_⟩
  exact (mem_iter_col _ c).mpr ⟨r, hr, rfl⟩

theorem idx_inj (j k : BoardIdx) (hj : j ∈ visitOrder) (hk : k ∈ visitOrder)
    (h : j.idx = k.idx) : j = k := by
  obtain ⟨c1, hc1, r1, hr1, rfl⟩ := visitOrder_dest j hj
  obtain ⟨c2, hc2, r2, hr2, rfl⟩ := visitOrder_dest k hk
  rw [new_inj]
  simp only [BoardIdx.new] at h
  omega

theorem play_cell_get_self (b : Board) (c r d : Nat) (hc : c < 9) (hr : r < 9) :
    (b.play_cell (BoardIdx.new c r) d).get (BoardIdx.new c r) = Cell.fixed d := by
  unfold Board.get
  rw [play_cell_cells]
  have hcond : ¬ ∃ j ∈ peersList (BoardIdx.new c r),
      j ≠ BoardIdx.new c r ∧ j.idx = (BoardIdx.new c r).idx := by
    rintro ⟨j, hj, hne, hidx⟩
    exact hne (idx_inj j _ (mem_peersList_valid c r hc hr j hj)
      (mem_visitOrder_new c r hc hr) hidx)
  rw [if_neg hcond, if_pos rfl]

theorem play_cell_get_other (b : Board) (c r d c2 r2 : Nat) (hc : c < 9) (hr : r < 9)
    (hc2 : c2 < 9) (hr2 : r2 < 9) (hne : BoardIdx.new c2 r2 ≠ BoardIdx.new c r) :
    (b.play_cell (BoardIdx.new c r) d).get (BoardIdx.new c2 r2)
      = if peer (BoardIdx.new c2 r2) (BoardIdx.new c r)
        then Cell.set_possible (b.get (BoardIdx.new c2 r2)) d false
        else b.get (BoardIdx.new c2 r2) := by
  unfold Board.get
  rw [play_cell_cells]
  have hidxne : (BoardIdx.new c2 r2).idx ≠ (BoardIdx.new c r).idx := by
    intro h
    exact hne (idx_inj _ _ (mem_visitOrder_new c2 r2 hc2 hr2)
      (mem_visitOrder_new c r hc hr) h)
  by_cases hp : peer (BoardIdx.new c2 r2) (BoardIdx.new c r)
  · rw [if_pos hp]
    have hcond : ∃ j ∈ peersList (BoardIdx.new c r),
        j ≠ BoardIdx.new c r ∧ j.idx = (BoardIdx.new c2 r2).idx :=
      ⟨BoardIdx.new c2 r2, (mem_peersList_new c r c2 r2 hc hr hc2 hr2).mpr hp, hne, rfl⟩
    rw [if_pos hcond, if_neg hidxne]
  · rw [if_neg hp]
    have hcond : ¬ ∃ j ∈ peersList (BoardIdx.new c r),
        j ≠ BoardIdx.new c r ∧ j.idx = (BoardIdx.new c2 r2).idx := by
      rintro ⟨j, hj, hjne, hidx⟩
      have hjv := mem_peersList_valid c r hc hr j hj
      have hje : j = BoardIdx.new c2 r2 :=
        idx_inj j _ hjv (mem_visitOrder_new c2 r2 hc2 hr2) hidx
      subst hje
      exact hp ((mem_peersList_new c r c2 r2 hc hr hc2 hr2).mp hj)
    rw [if_neg hcond, if_neg hidxne]

/-- C3: `play_cell(address, d)` sets the cell at the address to the
singleton `{d}`, adds the address to the played set, clears bit `d` from the
possibility set of every other cell sharing the address's row, column or 3×3
block, and leaves every cell outside those groups unchanged. -/
theorem c3_play_cell (b : Board) (c r d : Nat) (hc : c < 9) (hr : r < 9)
    (hd1 : 1 ≤ d) (hd9 : d ≤ 9) :
    ((b.play_cell (BoardIdx.new c r) d).get (BoardIdx.new c r) = Cell.fixed d) ∧
    (∀ j, j ∈ (b.play_cell (BoardIdx.new c r) d).played ↔
      j = BoardIdx.new c r ∨ j ∈ b.played) ∧
    (∀ c2 r2, c2 < 9 → r2 < 9 → BoardIdx.new c2 r2 ≠ BoardIdx.new c r →
      (peer (BoardIdx.new c2 r2) (BoardIdx.new c r) →
        (b.play_cell (BoardIdx.new c r) d).get (BoardIdx.new c2 r2)
          = Cell.set_possible (b.get (BoardIdx.new c2 r2)) d false) ∧
      (¬ peer (BoardIdx.new c2 r2) (BoardIdx.new c r) →
        (b.play_cell (BoardIdx.new c r) d).get (BoardIdx.new c2 r2)
          = b.get (BoardIdx.new c2 r2))) := by
  refine ⟨play_cell_get_self b c r d hc hr, ?_, ?_⟩
  · intro j
    exact mem_play_cell_played b _ j d
  · intro c2 r2 hc2 hr2 hne
    constructor
    · intro hp
      rw [play_cell_get_other b c r d c2 r2 hc hr hc2 hr2 hne, if_pos hp]
    · intro hp
      rw [play_cell_get_other b c r d c2 r2 hc hr hc2 hr2 hne, if_neg hp]

theorem c3_play_cell_witness :
    (Board.new.play_cell (BoardIdx.new 0 0) 5).get (BoardIdx.new 0 0) = Cell.fixed 5 :=
  (c3_play_cell Board.new 0 0 5 (by decide) (by decide) (by decide) (by decide)).1

theorem play_cell_idem_cells (b : Board) (i : BoardIdx) (d : Nat) (n : Nat) :
    ((b.play_cell i d).play_cell i d).cells n = (b.play_cell i d).cells n := by
  rw [play_cell_cells (b.play_cell i d) i d n, play_cell_cells b i d n]
  by_cases hc : ∃ j ∈ peersList i, j ≠ i ∧ j.idx = n
  · rw [if_pos hc, if_pos hc]
    by_cases hn : n = i.idx
    · rw [if_pos hn, if_pos hn]
    · rw [if_neg hn, if_neg hn, set_possible_false_idem]
  · rw [if_neg hc, if_neg hc]
    by_cases hn : n = i.idx
    · rw [if_pos hn, if_pos hn]
    · rw [if_neg hn, if_neg hn]

theorem play_cell_idem (b : Board) (i : BoardIdx) (d : Nat) :
    (b.play_cell i d).play_cell i d = b.play_cell i d := by
  have hp : ((b.play_cell i d).play_cell i d).played = (b.play_cell i d).played := by
    rw [play_cell_played ((b.play_cell i d)) i d,
      if_pos ((mem_play_cell_played b i i d).mpr (Or.inl rfl))]
  have hcells : ((b.play_cell i d).play_cell i d).cells = (b.play_cell i d).cells :=
    funext (play_cell_idem_cells b i d)
  cases h1 : (b.play_cell i d).play_cell i d with
  | mk cs pl =>
    cases h2 : b.play_cell i d with
    | mk cs2 pl2 =>
      rw [h1, h2] at hp hcells
      simp only at hp hcells
      rw [hp, hcells]

/-- C6: playing the same digit at the same address twice leaves the played
cell exactly as after the first call, and the second call never re-adds to
any cell a candidate bit that was previously cleared (possibility sets only
shrink, never grow). -/
theorem c6_play_cell_idempotent (b : Board) (i : BoardIdx) (d : Nat) :
    (((b.play_cell i d).play_cell i d).get i = (b.play_cell i d).get i) ∧
    (∀ j e, Cell.is_possible (((b.play_cell i d).play_cell i d).get j) e = true →
      Cell.is_possible ((b.play_cell i d).get j) e = true) := by
  rw [play_cell_idem]
  exact ⟨rfl, fun j e h => h⟩

theorem c6_play_cell_idempotent_witness :
    Cell.is_possible ((Board.new.play_cell (BoardIdx.new 0 0) 5).get (BoardIdx.new 8 8)) 3 = true :=
  (c6_play_cell_idempotent Board.new (BoardIdx.new 0 0) 5).2 (BoardIdx.new 8 8) 3 (by decide)

theorem checkGroupAux_nilposs (b : Board) (seen : List Nat) (i : BoardIdx)
    (rest : List BoardIdx) (h : (b.get i).possibilities = []) :
    checkGroupAux b seen (i :: rest) = false := by
  unfold checkGroupAux
  rw [h]

theorem checkGroupAux_single (b : Board) (seen : List Nat) (i : BoardIdx)
    (rest : List BoardIdx) (d : Nat) (h : (b.get i).possibilities = [d]) :
    checkGroupAux b seen (i :: rest)
      = if d ∈ seen then false else checkGroupAux b (d :: seen) rest := by
  conv_lhs => unfold checkGroupAux
  rw [h]

theorem checkGroupAux_multi (b : Board) (seen : List Nat) (i : BoardIdx)
    (rest : List BoardIdx) (d d2 : Nat) (t2 : List Nat)
    (h : (b.get i).possibilities = d :: d2 :: t2) :
    checkGroupAux b seen (i :: rest) = checkGroupAux b seen rest := by
  conv_lhs => unfold checkGroupAux
  rw [h]

theorem checkGroupAux_iff (b : Board) :
    ∀ (g : List BoardIdx) (seen : List Nat),
      checkGroupAux b seen g = true ↔
        ((∀ i ∈ g, (b.get i).possibilities ≠ []) ∧
         (∀ i ∈ g, ∀ d, (b.get i).possibilities = [d] → d ∉ seen) ∧
         g.Pairwise (fun i j => ∀ d, ¬((b.get i).possibilities = [d] ∧
           (b.get j).possibilities = [d]))) := by
  intro g
  induction g with
  | nil =>
    intro seen
    simp [checkGroupAux]
  | cons i rest ih =>
    intro seen
    cases h : (b.get i).possibilities with
    | nil =>
      rw [checkGroupAux_nilposs b seen i rest h]
      simp only [Bool.false_eq_true, false_iff]
      rintro ⟨hne, -, -⟩
      exact hne i (List.mem_cons_self i rest) h
    | cons d tail =>
      cases tail with
      | nil =>
        rw [checkGroupAux_single b seen i rest d h]
        by_cases hd : d ∈ seen
        · rw [if_pos hd]
          simp only [Bool.false_eq_true, false_iff]
          rintro ⟨-, hseen, -⟩
          exact (hseen i (List.mem_cons_self i rest) d h) hd
        · rw [if_neg hd, ih (d :: seen)]
          constructor
          · rintro ⟨b1, b2, b3⟩
            refine ⟨?_, ?_, ?_⟩
            · intro j hj
              rcases List.mem_cons.mp hj with rfl | hj2
              · rw [h]; exact List.cons_ne_nil d []
              · exact b1 j hj2
            · intro j hj e hje
              rcases List.mem_cons.mp hj with rfl | hj2
              · rw [h] at hje
                injection hje with he
                subst he
                exact hd
              · intro hmem
                exact (b2 j hj2 e hje) (List.mem_cons_of_mem _ hmem)
            · rw [List.pairwise_cons]
              refine ⟨?_, b3⟩
              intro j hj e
              rintro ⟨hie, hje⟩
              rw [h] at hie
              injection hie with he
              subst he
              exact (b2 j hj d hje) (List.mem_cons_self d seen)
          · rintro ⟨a1, a2, a3⟩
            rw [List.pairwise_cons] at a3
            refine ⟨?_, ?_, a3.2⟩
            · intro j hj
              exact a1 j (List.mem_cons_of_mem _ hj)
            · intro j hj e hje hmem
              rcases List.mem_cons.mp hmem with rfl | hmem2
              · exact (a3.1 j hj e) ⟨h, hje⟩
              · exact (a2 j (List.mem_cons_of_mem _ hj) e hje) hmem2
      | cons d2 tail2 =>
        rw [checkGroupAux_multi b seen i rest d d2 tail2 h, ih seen]
        constructor
        · rintro ⟨b1, b2, b3⟩
          refine ⟨?_, ?_, ?_⟩
          · intro j hj
            rcases List.mem_cons.mp hj with rfl | hj2
            · rw [h]; exact List.cons_ne_nil d (d2 :: tail2)
            · exact b1 j hj2
          · intro j hj e hje
            rcases List.mem_cons.mp hj with rfl | hj2
            · rw [h] at hje
              exact absurd hje (by simp)
            · exact b2 j hj2 e hje
          · rw [List.pairwise_cons]
            refine ⟨?_, b3⟩
            intro j hj e
            rintro ⟨hie, -⟩
            rw [h] at hie
            exact absurd hie (by simp)
        · rintro ⟨a1, a2, a3⟩
          rw [List.pairwise_cons] at a3
          exact ⟨fun j hj => a1 j (List.mem_cons_of_mem _ hj),
            fun j hj e hje => a2 j (List.mem_cons_of_mem _ hj) e hje, a3.2⟩

theorem checkGroup_iff (b : Board) (g : List BoardIdx) :
    checkGroup b g = true ↔
      ((∀ i ∈ g, (b.get i).possibilities ≠ []) ∧
       g.Pairwise (fun i j => ∀ d, ¬((b.get i).possibilities = [d] ∧
         (b.get j).possibilities = [d]))) := by
  unfold checkGroup
  rw [checkGroupAux_iff]
  constructor
  · rintro ⟨h1, -, h3⟩
    exact ⟨h1, h3⟩
  · rintro ⟨h1, h3⟩
    exact ⟨h1, fun i hi d hd hmem => (List.not_mem_nil d) hmem, h3⟩

/-- C2: `verify` returns invalid exactly when some cell has zero candidates
or some group contains two distinct cells each holding the same singleton
digit; in particular a board with still-undetermined multi-candidate cells
and no such violation is accepted as valid. -/
theorem c2_verify_iff (b : Board) :
    b.verify = false ↔
      ((∃ i ∈ visitOrder, (b.get i).possibilities = []) ∨
       (∃ g ∈ groupList, ∃ i ∈ g, ∃ j ∈ g, i ≠ j ∧
         ∃ d, (b.get i).possibilities = [d] ∧ (b.get j).possibilities = [d])) := by
  constructor
  · intro hfalse
    have hnot : ¬ (∀ g ∈ groupList, checkGroup b g = true) := by
      intro hall
      rw [Bool.eq_false_iff] at hfalse
      exact hfalse (List.all_eq_true.mpr hall)
    push_neg at hnot
    obtain ⟨g, hg, hcheck⟩ := hnot
    obtain ⟨hvalid, hnodup, hlen, hpeer⟩ := group_facts g hg
    by_cases hemp : ∃ i ∈ g, (b.get i).possibilities = []
    · left
      obtain ⟨i, hi, he⟩ := hemp
      exact ⟨i, hvalid i hi, he⟩
    · right
      have hnoemp : ∀ i ∈ g, (b.get i).possibilities ≠ [] :=
        fun i hi he => hemp ⟨i, hi, he⟩
      have hpw : ¬ g.Pairwise (fun i j => ∀ d, ¬((b.get i).possibilities = [d] ∧
          (b.get j).possibilities = [d])) := by
        intro hpw
        exact hcheck ((checkGroup_iff b g).mpr ⟨hnoemp, hpw⟩)
      rw [List.pairwise_iff_get] at hpw
      obtain ⟨i, hpw⟩ := not_forall.mp hpw
      obtain ⟨j, hpw⟩ := not_forall.mp hpw
      obtain ⟨hij, hr⟩ := not_forall.mp hpw
      obtain ⟨d, hd⟩ := not_forall.mp hr
      obtain ⟨hd1, hd2⟩ := not_not.mp hd
      refine ⟨g, hg, g.get i, List.get_mem g i.1 i.2, g.get j, List.get_mem g j.1 j.2,
        ?_, d, hd1, hd2⟩
      intro heq
      have hij' := (hnodup.get_inj_iff).mp heq
      rw [hij'] at hij
      exact lt_irrefl _ hij
  · intro h
    rw [Bool.eq_false_iff]
    intro htrue
    unfold Board.verify at htrue
    rw [List.all_eq_true] at htrue
    rcases h with ⟨i, hi, hemp⟩ | ⟨g, hg, i, hig, j, hjg, hij, d, hd1, hd2⟩
    · obtain ⟨g, hg, hmem⟩ := exists_group_mem i hi
      have hch := (checkGroup_iff b g).mp (htrue g hg)
      exact hch.1 i hmem hemp
    · have hch := (checkGroup_iff b g).mp (htrue g hg)
      have hsym : Symmetric (fun i j : BoardIdx => ∀ d, ¬((b.get i).possibilities = [d] ∧
          (b.get j).possibilities = [d])) := by
        rintro x y hxy d ⟨h1, h2⟩
        exact (hxy d) ⟨h2, h1⟩
      exact (hch.2.forall hsym hig hjg hij d) ⟨hd1, hd2⟩

theorem scanAux_all_played (b : Board) (lc : Option BoardIdx) (cnt : Nat) :
    ∀ l : List BoardIdx, (∀ i ∈ l, i ∈ b.played) →
      scanAux b lc cnt l = some (b, lc, cnt) := by
  intro l
  induction l with
  | nil => intro h; rfl
  | cons i rest ih =>
    intro h
    unfold scanAux
    rw [if_pos (h i (List.mem_cons_self i rest))]
    exact ih (fun j hj => h j (List.mem_cons_of_mem _ hj))

theorem solveAux_all_played (fuel : Nat) (b : Board)
    (hp : ∀ i ∈ visitOrder, i ∈ b.played) (hv : b.verify = true) :
    solveAux (fuel + 1) b = some b := by
  unfold solveAux
  rw [if_pos hv, scanAux_all_played b none usize_max visitOrder hp]

theorem solve_all_played (b : Board) (hp : ∀ i ∈ visitOrder, i ∈ b.played)
    (hv : b.verify = true) : solve b = some b :=
  solveAux_all_played 81 b hp hv

/-- C7: a board in which all 81 cells are played and which `verify` accepts
is returned by `solve` unchanged, without branching. -/
theorem c7_solved_fixed_point (b : Board) (hp : ∀ i ∈ visitOrder, i ∈ b.played)
    (hv : b.verify = true) : solve b = some b :=
  solve_all_played b hp hv

theorem c7_solved_fixed_point_witness : solve solvedBoard = some solvedBoard :=
  c7_solved_fixed_point solvedBoard (fun i hi => hi) (by decide)

theorem possibilities_bounds (c : Cell) (d : Nat) (hd : d ∈ c.possibilities) :
    1 ≤ d ∧ d ≤ 9 := by
  unfold Cell.possibilities at hd
  have hm := (List.mem_filter.mp hd).1
  rw [List.mem_range'] at hm
  obtain ⟨i, hi, rfl⟩ := hm
  omega

theorem num_possibilities_le (c : Cell) : c.num_possibilities ≤ 9 :=
  List.length_filter_le _ _

theorem possibilities_singleton (c : Cell) (h : c.num_possibilities = 1) :
    c.possibilities = [c.possibilities.headD 0] := by
  unfold Cell.num_possibilities at h
  cases hp : c.possibilities with
  | nil => rw [hp] at h; simp at h
  | cons d tail =>
    cases tail with
    | nil => rfl
    | cons d2 t2 => rw [hp] at h; simp at h

theorem countP_le_mono {α : Type} (p q : α → Bool) :
    ∀ l : List α, (∀ a ∈ l, p a = true → q a = true) → l.countP p ≤ l.countP q := by
  intro l
  induction l with
  | nil => intro h; simp
  | cons a rest ih =>
    intro h
    rw [List.countP_cons, List.countP_cons]
    have hrest := ih (fun x hx => h x (List.mem_cons_of_mem _ hx))
    by_cases hpa : p a = true
    · rw [hpa, h a (List.mem_cons_self a rest) hpa]
      omega
    · rw [Bool.not_eq_true] at hpa
      rw [hpa]
      simp only [Bool.false_eq_true, if_false]
      split <;> omega

theorem countP_lt_strict {α : Type} (p q : α → Bool) :
    ∀ l : List α, (∀ a ∈ l, p a = true → q a = true) →
      ∀ x ∈ l, q x = true → p x = false → l.countP p < l.countP q := by
  intro l
  induction l with
  | nil => intro _ x hx; exact absurd hx (List.not_mem_nil x)
  | cons a rest ih =>
    intro h x hx hqx hpx
    rw [List.countP_cons, List.countP_cons]
    have hmono := countP_le_mono p q rest (fun y hy => h y (List.mem_cons_of_mem _ hy))
    rcases List.mem_cons.mp hx with rfl | hx2
    · rw [hqx, hpx]
      simp only [Bool.false_eq_true, if_false, if_pos]
      omega
    · have := ih (fun y hy => h y (List.mem_cons_of_mem _ hy)) x hx2 hqx hpx
      by_cases hpa : p a = true
      · rw [hpa, h a (List.mem_cons_self a rest) hpa]
        omega
      · rw [Bool.not_eq_true] at hpa
        rw [hpa]
        simp only [Bool.false_eq_true, if_false]
        split <;> omega

theorem unplayed_le_of_played_mono (b b' : Board)
    (h : ∀ j, j ∈ b.played → j ∈ b'.played) :
    unplayed_count b' ≤ unplayed_count b := by
  unfold unplayed_count
  apply countP_le_mono
  intro a _ ha
  simp only [Bool.not_eq_true', decide_eq_false_iff_not] at ha ⊢
  exact fun hmem => ha (h a hmem)

theorem unplayed_lt_of_new_play (b b' : Board)
    (h : ∀ j, j ∈ b.played → j ∈ b'.played)
    (x : BoardIdx) (hx : x ∈ visitOrder) (hxb : x ∉ b.played) (hxb' : x ∈ b'.played) :
    unplayed_count b' < unplayed_count b := by
  unfold unplayed_count
  apply countP_lt_strict
  · intro a _ ha
    simp only [Bool.not_eq_true', decide_eq_false_iff_not] at ha ⊢
    exact fun hmem => ha (h a hmem)
  · exact hx
  · simp only [Bool.not_eq_true', decide_eq_false_iff_not]
    exact hxb
  · simp only [Bool.not_eq_false', decide_eq_true_iff]
    exact hxb'

theorem unplayed_play_lt (b : Board) (i : BoardIdx) (num : Nat)
    (hi : i ∈ visitOrder) (hnp : i ∉ b.played) :
    unplayed_count (b.play_cell i num) < unplayed_count b := by
  apply unplayed_lt_of_new_play b (b.play_cell i num) ?_ i hi hnp
  · exact (mem_play_cell_played b i i num).mpr (Or.inl rfl)
  · intro j hj
    exact (mem_play_cell_played b i j num).mpr (Or.inr hj)

theorem unplayed_count_le_81 (b : Board) : unplayed_count b ≤ 81 := by
  unfold unplayed_count
  calc visitOrder.countP _ ≤ visitOrder.length := List.countP_le_length _
    _ = 81 := by decide

theorem visitOrder_nodup : visitOrder.Nodup := by
  have h : (visitOrder.map (fun i => i.idx)).Nodup := by decide
  exact h.of_map

theorem scanAux_cons_played (b : Board) (lc : Option BoardIdx) (cnt : Nat)
    (i : BoardIdx) (rest : List BoardIdx) (h : i ∈ b.played) :
    scanAux b lc cnt (i :: rest) = scanAux b lc cnt rest := by
  conv_lhs => unfold scanAux
  rw [if_pos h]

theorem scanAux_cons_zero (b : Board) (lc : Option BoardIdx) (cnt : Nat)
    (i : BoardIdx) (rest : List BoardIdx) (h : i ∉ b.played)
    (h0 : (b.get i).num_possibilities = 0) :
    scanAux b lc cnt (i :: rest) = none := by
  conv_lhs => unfold scanAux
  rw [if_neg h]
  dsimp only
  rw [h0]
  norm_num

theorem scanAux_cons_one (b : Board) (lc : Option BoardIdx) (cnt : Nat)
    (i : BoardIdx) (rest : List BoardIdx) (h : i ∉ b.played)
    (h1 : (b.get i).num_possibilities = 1) :
    scanAux b lc cnt (i :: rest)
      = scanAux (b.play_cell i ((b.get i).possibilities.headD 0)) lc cnt rest := by
  conv_lhs => unfold scanAux
  rw [if_neg h]
  dsimp only
  rw [h1]
  norm_num

theorem scanAux_cons_track (b : Board) (lc : Option BoardIdx) (cnt : Nat)
    (i : BoardIdx) (rest : List BoardIdx) (h : i ∉ b.played)
    (h0 : (b.get i).num_possibilities ≠ 0) (h1 : (b.get i).num_possibilities ≠ 1)
    (h4 : cnt > (b.get i).num_possibilities) :
    scanAux b lc cnt (i :: rest)
      = scanAux b (some i) ((b.get i).num_possibilities) rest := by
  conv_lhs => unfold scanAux
  rw [if_neg h]
  dsimp only
  rw [if_neg h0, if_neg h1, if_pos h4]

theorem scanAux_cons_notrack (b : Board) (lc : Option BoardIdx) (cnt : Nat)
    (i : BoardIdx) (rest : List BoardIdx) (h : i ∉ b.played)
    (h0 : (b.get i).num_possibilities ≠ 0) (h1 : (b.get i).num_possibilities ≠ 1)
    (h4 : ¬ cnt > (b.get i).num_possibilities) :
    scanAux b lc cnt (i :: rest) = scanAux b lc cnt rest := by
  conv_lhs => unfold scanAux
  rw [if_neg h]
  dsimp only
  rw [if_neg h0, if_neg h1, if_neg h4]

theorem scanAux_played_mono :
    ∀ (l : List BoardIdx) (b : Board) (lc : Option BoardIdx) (cnt : Nat)
      (b' : Board) (lc' : Option BoardIdx) (cnt' : Nat),
      scanAux b lc cnt l = some (b', lc', cnt') →
      ∀ j, j ∈ b.played → j ∈ b'.played := by
  intro l
  induction l with
  | nil =>
    intro b lc cnt b' lc' cnt' h j hj
    unfold scanAux at h
    injection h with h
    injection h with h1 h2
    rw [← h1]
    exact hj
  | cons i rest ih =>
    intro b lc cnt b' lc' cnt' h j hj
    by_cases hp : i ∈ b.played
    · rw [scanAux_cons_played b lc cnt i rest hp] at h
      exact ih b lc cnt b' lc' cnt' h j hj
    · by_cases h0 : (b.get i).num_possibilities = 0
      · rw [scanAux_cons_zero b lc cnt i rest hp h0] at h
        exact absurd h (by simp)
      · by_cases h1 : (b.get i).num_possibilities = 1
        · rw [scanAux_cons_one b lc cnt i rest hp h1] at h
          refine ih _ lc cnt b' lc' cnt' h j ?_
          exact (mem_play_cell_played b i j _).mpr (Or.inr hj)
        · by_cases h4 : cnt > (b.get i).num_possibilities
          · rw [scanAux_cons_track b lc cnt i rest hp h0 h1 h4] at h
            exact ih b (some i) _ b' lc' cnt' h j hj
          · rw [scanAux_cons_notrack b lc cnt i rest hp h0 h1 h4] at h
            exact ih b lc cnt b' lc' cnt' h j hj

theorem scanAux_tracked :
    ∀ (l : List BoardIdx) (b : Board) (lc : Option BoardIdx) (cnt : Nat)
      (b' : Board) (lc' : Option BoardIdx) (cnt' : Nat),
      scanAux b lc cnt l = some (b', lc', cnt') →
      (∀ i ∈ l, i ∈ visitOrder) → l.Nodup →
      (∀ c, lc = some c → c ∈ visitOrder ∧ c ∉ b.played ∧ c ∉ l) →
      ∀ c, lc' = some c → c ∈ visitOrder ∧ c ∉ b'.played := by
  intro l
  induction l with
  | nil =>
    intro b lc cnt b' lc' cnt' h hv hnd hP c hc
    unfold scanAux at h
    injection h with h
    injection h with h1 h2
    injection h2 with h2 h3
    subst h1
    subst h2
    obtain ⟨hin, hnp, -⟩ := hP c hc
    exact ⟨hin, hnp⟩
  | cons i rest ih =>
    intro b lc cnt b' lc' cnt' h hv hnd hP c hc
    have hv' : ∀ j ∈ rest, j ∈ visitOrder := fun j hj => hv j (List.mem_cons_of_mem _ hj)
    have hnd' : rest.Nodup := (List.nodup_cons.mp hnd).2
    by_cases hp : i ∈ b.played
    · rw [scanAux_cons_played b lc cnt i rest hp] at h
      refine ih b lc cnt b' lc' cnt' h hv' hnd' ?_ c hc
      intro x hx
      obtain ⟨h1, h2, h3⟩ := hP x hx
      exact ⟨h1, h2, fun hmem => h3 (List.mem_cons_of_mem _ hmem)⟩
    · by_cases h0 : (b.get i).num_possibilities = 0
      · rw [scanAux_cons_zero b lc cnt i rest hp h0] at h
        exact absurd h (by simp)
      · by_cases h1 : (b.get i).num_possibilities = 1
        · rw [scanAux_cons_one b lc cnt i rest hp h1] at h
          refine ih _ lc cnt b' lc' cnt' h hv' hnd' ?_ c hc
          intro x hx
          obtain ⟨g1, g2, g3⟩ := hP x hx
          refine ⟨g1, ?_, fun hmem => g3 (List.mem_cons_of_mem _ hmem)⟩
          rw [mem_play_cell_played]
          rintro (rfl | hxp)
          · exact g3 (List.mem_cons_self x rest)
          · exact g2 hxp
        · by_cases h4 : cnt > (b.get i).num_possibilities
          · rw [scanAux_cons_track b lc cnt i rest hp h0 h1 h4] at h
            refine ih b (some i) _ b' lc' cnt' h hv' hnd' ?_ c hc
            intro x hx
            injection hx with hx
            subst hx
            exact ⟨hv i (List.mem_cons_self i rest), hp, (List.nodup_cons.mp hnd).1⟩
          · rw [scanAux_cons_notrack b lc cnt i rest hp h0 h1 h4] at h
            refine ih b lc cnt b' lc' cnt' h hv' hnd' ?_ c hc
            intro x hx
            obtain ⟨g1, g2, g3⟩ := hP x hx
            exact ⟨g1, g2, fun hmem => g3 (List.mem_cons_of_mem _ hmem)⟩

theorem findSome_congr {α β : Type} (f g : α → Option β) :
    ∀ l : List α, (∀ a ∈ l, f a = g a) → l.findSome? f = l.findSome? g := by
  intro l
  induction l with
  | nil => intro h; rfl
  | cons a rest ih =>
    intro h
    rw [List.findSome?_cons, List.findSome?_cons, h a (List.mem_cons_self a rest)]
    cases g a with
    | none => exact ih (fun x hx => h x (List.mem_cons_of_mem _ hx))
    | some v => rfl

theorem solveAux_succ (fuel : Nat) (b : Board) :
    solveAux (fuel + 1) b =
      if b.verify then
        match scanAux b none usize_max visitOrder with
        | none => none
        | some (b', none, _) => some b'
        | some (b', some next, _) =>
          ((b'.get next).possibilities).findSome?
            (fun possibility => solveAux fuel (b'.play_cell next possibility))
      else none := rfl

theorem solveAux_fuel_independent :
    ∀ (n : Nat) (b : Board) (m : Nat), unplayed_count b < n → unplayed_count b < m →
      solveAux n b = solveAux m b := by
  intro n
  induction n using Nat.strong_induction_on with
  | _ n ih =>
    intro b m hn hm
    cases n with
    | zero => omega
    | succ n' =>
      cases m with
      | zero => omega
      | succ m' =>
        rw [solveAux_succ n' b, solveAux_succ m' b]
        by_cases hv : b.verify
        · rw [if_pos hv, if_pos hv]
          cases hscan : scanAux b none usize_max visitOrder with
          | none => rfl
          | some res =>
            obtain ⟨b1, lc1, cnt1⟩ := res
            cases lc1 with
            | none => rfl
            | some next =>
              apply findSome_congr
              intro p hp
              have hmono := scanAux_played_mono visitOrder b none usize_max b1
                (some next) cnt1 hscan
              have htrack := scanAux_tracked visitOrder b none usize_max b1
                (some next) cnt1 hscan (fun i hi => hi) visitOrder_nodup
                (fun c hc => absurd hc (by simp)) next rfl
              have hlt1 : unplayed_count (b1.play_cell next p) < unplayed_count b1 :=
                unplayed_play_lt b1 next p htrack.1 htrack.2
              have hle : unplayed_count b1 ≤ unplayed_count b :=
                unplayed_le_of_played_mono b b1 hmono
              exact ih n' (by omega) _ m' (by omega) (by omega)
        · rw [if_neg hv, if_neg hv]

/-- C5: the search terminates on every board: the result of `solveAux` is
independent of the fuel once it exceeds the number of unplayed cells (at
most 81, which fuel 82 always exceeds), because every recursive call is made
on a board with strictly more played — hence strictly fewer unplayed —
cells. -/
theorem c5_solve_terminates (b : Board) :
    (∀ n m, unplayed_count b < n → unplayed_count b < m →
      solveAux n b = solveAux m b) ∧
    solve b = solveAux (unplayed_count b + 1) b ∧
    (∀ b1 next cnt' p, scanAux b none usize_max visitOrder = some (b1, some next, cnt') →
      unplayed_count (b1.play_cell next p) < unplayed_count b) := by
  refine ⟨fun n m hn hm => solveAux_fuel_independent n b m hn hm, ?_, ?_⟩
  · have h81 := unplayed_count_le_81 b
    exact solveAux_fuel_independent 82 b (unplayed_count b + 1) (by omega) (by omega)
  · intro b1 next cnt' p hscan
    have hmono := scanAux_played_mono visitOrder b none usize_max b1 (some next) cnt' hscan
    have htrack := scanAux_tracked visitOrder b none usize_max b1 (some next) cnt' hscan
      (fun i hi => hi) visitOrder_nodup (fun c hc => absurd hc (by simp)) next rfl
    have hlt1 : unplayed_count (b1.play_cell next p) < unplayed_count b1 :=
      unplayed_play_lt b1 next p htrack.1 htrack.2
    have hle : unplayed_count b1 ≤ unplayed_count b :=
      unplayed_le_of_played_mono b b1 hmono
    omega

theorem c5_solve_terminates_witness :
    solveAux 1 solvedBoard = solveAux 82 solvedBoard :=
  (c5_solve_terminates solvedBoard).1 1 82 (by decide) (by decide)

theorem scanTraceAux_cons_played (b : Board) (i : BoardIdx) (rest : List BoardIdx)
    (h : i ∈ b.played) : scanTraceAux b (i :: rest) = scanTraceAux b rest := by
  conv_lhs => unfold scanTraceAux
  rw [if_pos h]

theorem scanTraceAux_cons_zero (b : Board) (i : BoardIdx) (rest : List BoardIdx)
    (h : i ∉ b.played) (h0 : (b.get i).num_possibilities = 0) :
    scanTraceAux b (i :: rest) = [] := by
  conv_lhs => unfold scanTraceAux
  rw [if_neg h]
  dsimp only
  rw [h0]
  norm_num

theorem scanTraceAux_cons_one (b : Board) (i : BoardIdx) (rest : List BoardIdx)
    (h : i ∉ b.played) (h1 : (b.get i).num_possibilities = 1) :
    scanTraceAux b (i :: rest)
      = scanTraceAux (b.play_cell i ((b.get i).possibilities.headD 0)) rest := by
  conv_lhs => unfold scanTraceAux
  rw [if_neg h]
  dsimp only
  rw [h1]
  norm_num

theorem scanTraceAux_cons_multi (b : Board) (i : BoardIdx) (rest : List BoardIdx)
    (h : i ∉ b.played) (h0 : (b.get i).num_possibilities ≠ 0)
    (h1 : (b.get i).num_possibilities ≠ 1) :
    scanTraceAux b (i :: rest)
      = (i, (b.get i).num_possibilities) :: scanTraceAux b rest := by
  conv_lhs => unfold scanTraceAux
  rw [if_neg h]
  dsimp only
  rw [if_neg h0, if_neg h1]

theorem scanTrace_bounds :
    ∀ (l : List BoardIdx) (b : Board), ∀ e ∈ scanTraceAux b l, 2 ≤ e.2 ∧ e.2 ≤ 9 := by
  intro l
  induction l with
  | nil => intro b e he; exact absurd he (List.not_mem_nil e)
  | cons i rest ih =>
    intro b e he
    by_cases hp : i ∈ b.played
    · rw [scanTraceAux_cons_played b i rest hp] at he
      exact ih b e he
    · by_cases h0 : (b.get i).num_possibilities = 0
      · rw [scanTraceAux_cons_zero b i rest hp h0] at he
        exact absurd he (List.not_mem_nil e)
      · by_cases h1 : (b.get i).num_possibilities = 1
        · rw [scanTraceAux_cons_one b i rest hp h1] at he
          exact ih _ e he
        · rw [scanTraceAux_cons_multi b i rest hp h0 h1] at he
          rcases List.mem_cons.mp he with rfl | he2
          · exact ⟨by omega, num_possibilities_le _⟩
          · exact ih b e he2

theorem scanAux_trace_fold :
    ∀ (l : List BoardIdx) (b : Board) (lc : Option BoardIdx) (cnt : Nat)
      (b' : Board) (lc' : Option BoardIdx) (cnt' : Nat),
      scanAux b lc cnt l = some (b', lc', cnt') →
      (lc', cnt') = (scanTraceAux b l).foldl
        (fun acc e => if acc.2 > e.2 then (some e.1, e.2) else acc) (lc, cnt) := by
  intro l
  induction l with
  | nil =>
    intro b lc cnt b' lc' cnt' h
    unfold scanAux at h
    injection h with h
    injection h with h1 h2
    injection h2 with h2 h3
    subst h2
    subst h3
    rfl
  | cons i rest ih =>
    intro b lc cnt b' lc' cnt' h
    by_cases hp : i ∈ b.played
    · rw [scanAux_cons_played b lc cnt i rest hp] at h
      rw [scanTraceAux_cons_played b i rest hp]
      exact ih b lc cnt b' lc' cnt' h
    · by_cases h0 : (b.get i).num_possibilities = 0
      · rw [scanAux_cons_zero b lc cnt i rest hp h0] at h
        exact absurd h (by simp)
      · by_cases h1 : (b.get i).num_possibilities = 1
        · rw [scanAux_cons_one b lc cnt i rest hp h1] at h
          rw [scanTraceAux_cons_one b i rest hp h1]
          exact ih _ lc cnt b' lc' cnt' h
        · rw [scanTraceAux_cons_multi b i rest hp h0 h1, List.foldl_cons]
          dsimp only
          by_cases h4 : cnt > (b.get i).num_possibilities
          · rw [scanAux_cons_track b lc cnt i rest hp h0 h1 h4] at h
            rw [if_pos h4]
            exact ih b (some i) _ b' lc' cnt' h
          · rw [scanAux_cons_notrack b lc cnt i rest hp h0 h1 h4] at h
            rw [if_neg h4]
            exact ih b lc cnt b' lc' cnt' h

theorem foldl_min_le_init : ∀ (l : List Nat) (a : Nat), l.foldl min a ≤ a := by
  intro l
  induction l with
  | nil => intro a; simp
  | cons x xs ih =>
    intro a
    rw [List.foldl_cons]
    calc xs.foldl min (min a x) ≤ min a x := ih _
      _ ≤ a := by omega

theorem argminFirst_cons_drop (x : BoardIdx) (v : Nat) (e : BoardIdx × Nat)
    (t : List (BoardIdx × Nat)) (h : e.2 < v) :
    argminFirst ((x, v) :: e :: t) = argminFirst (e :: t) := by
  simp only [argminFirst]
  rw [List.map_cons, List.foldl_cons]
  have hm : min v e.2 = e.2 := by omega
  rw [hm]
  have hmle := foldl_min_le_init (t.map Prod.snd) e.2
  rw [List.find?_cons_of_neg]
  simp only [beq_iff_eq]
  omega

theorem argminFirst_cons_keep (x : BoardIdx) (v : Nat) (e : BoardIdx × Nat)
    (t : List (BoardIdx × Nat)) (h : v ≤ e.2) :
    argminFirst ((x, v) :: e :: t) = argminFirst ((x, v) :: t) := by
  simp only [argminFirst]
  rw [List.map_cons, List.foldl_cons]
  have hm : min v e.2 = v := by omega
  rw [hm]
  have hmle := foldl_min_le_init (t.map Prod.snd) v
  by_cases hh : v = (t.map Prod.snd).foldl min v
  · rw [List.find?_cons_of_pos _ (by simp only [beq_iff_eq]; exact hh),
      List.find?_cons_of_pos _ (by simp only [beq_iff_eq]; exact hh)]
  · rw [List.find?_cons_of_neg _ (by simp only [beq_iff_eq]; exact hh),
      List.find?_cons_of_neg _ (by simp only [beq_iff_eq]; intro he; exact hh (by omega)),
      List.find?_cons_of_neg _ (by simp only [beq_iff_eq]; exact hh)]

theorem foldl_step_argmin :
    ∀ (t : List (BoardIdx × Nat)) (x : BoardIdx) (v : Nat),
      t.foldl (fun acc e => if acc.2 > e.2 then (some e.1, e.2) else acc) (some x, v)
        = (argminFirst ((x, v) :: t), (t.map Prod.snd).foldl min v) := by
  intro t
  induction t with
  | nil =>
    intro x v
    rw [List.foldl_nil, List.map_nil, List.foldl_nil]
    simp only [argminFirst]
    rw [List.map_nil, List.foldl_nil]
    rw [List.find?_cons_of_pos _ (by simp)]
    rfl
  | cons e t' ih =>
    intro x v
    rw [List.foldl_cons]
    dsimp only
    by_cases h4 : v > e.2
    · rw [if_pos h4, ih e.1 e.2]
      rw [argminFirst_cons_drop x v e t' h4]
      rw [List.map_cons, List.foldl_cons]
      have hm : min v e.2 = e.2 := by omega
      rw [hm]
    · rw [if_neg h4, ih x v]
      rw [argminFirst_cons_keep x v e t' (by omega)]
      rw [List.map_cons, List.foldl_cons]
      have hm : min v e.2 = v := by omega
      rw [hm]

/-- C4 (amended): in each `solve` call, when branching is needed, the cell
branched on is the unplayed cell whose candidate count at the moment the
scan visits it is minimal, with ties broken by first occurrence in the
scan's column-major order (`iproduct!(0..9, 0..9)` iterates columns
outermost) — not row-major order as the claim states. -/
theorem c4_branch_cell_argmin (b : Board) (next : BoardIdx)
    (h : branchCell b = some next) :
    argminFirst (scanTraceAux b visitOrder) = some next := by
  unfold branchCell at h
  cases hscan : scanAux b none usize_max visitOrder with
  | none => rw [hscan] at h; exact absurd h (by simp)
  | some res =>
    obtain ⟨b1, lc1, cnt1⟩ := res
    rw [hscan] at h
    replace h : lc1 = some next := h
    have hfold := scanAux_trace_fold visitOrder b none usize_max b1 lc1 cnt1 hscan
    cases ht : scanTraceAux b visitOrder with
    | nil =>
      rw [ht, List.foldl_nil] at hfold
      have h1 := congrArg Prod.fst hfold
      dsimp only at h1
      rw [h] at h1
      exact absurd h1 (by simp)
    | cons e t' =>
      rw [ht, List.foldl_cons] at hfold
      have hb2 := (scanTrace_bounds visitOrder b e (by rw [ht]; exact List.mem_cons_self e t')).2
      dsimp only at hfold
      have husize : usize_max > e.2 := by
        have : (18446744073709551615 : Nat) = usize_max := by norm_num [usize_max]
        omega
      rw [if_pos husize, foldl_step_argmin t' e.1 e.2] at hfold
      have h1 := congrArg Prod.fst hfold
      dsimp only at h1
      rw [h] at h1
      exact h1.symm

/-- C4 counterexample: on board `Bc` two unplayed cells (addresses 1 and 9)
tie with two candidates each; the code branches on address 9 — the first in
column-major order — while the claim's row-major rule picks address 1. -/
theorem c4_counterexample :
    branchCell Bc = some (BoardIdx.new 0 1) ∧
    rowMajorMinCell Bc = some (BoardIdx.new 1 0) ∧
    BoardIdx.new 0 1 ≠ BoardIdx.new 1 0 := by decide

theorem c4_branch_cell_argmin_witness :
    argminFirst (scanTraceAux Bc visitOrder) = some (BoardIdx.new 0 1) :=
  c4_branch_cell_argmin Bc (BoardIdx.new 0 1) (by decide)

theorem peer_symm (a b : BoardIdx) (h : peer a b) : peer b a := by
  unfold peer at h ⊢
  omega

theorem mem_possibilities_iff (c : Cell) (d : Nat) :
    d ∈ c.possibilities ↔ (d ∈ List.range' 1 9 ∧ Cell.is_possible c d = true) := by
  unfold Cell.possibilities
  exact List.mem_filter

theorem set_false_fixed : ∀ d, d ≤ 15 → ∀ num, num ≤ 15 →
    Cell.set_possible (Cell.fixed d) num false
      = if num = d then 0 else Cell.fixed d := by decide

theorem is_possible_clear_of_false (x num d : Nat)
    (h : Cell.is_possible x d = false) :
    Cell.is_possible (Cell.set_possible x num false) d = false := by
  cases hc : Cell.is_possible (Cell.set_possible x num false) d
  · rfl
  · have hmono := is_possible_set_false_mono x num d hc
    rw [h] at hmono
    exact absurd hmono (by simp)

theorem set_false_zero (num : Nat) : Cell.set_possible 0 num false = 0 := by
  unfold Cell.set_possible
  simp

theorem board_inv_play (b : Board) (c r num : Nat) (hc : c < 9) (hr : r < 9)
    (hn1 : 1 ≤ num) (hn9 : num ≤ 9) (hinv : board_inv b) :
    board_inv (b.play_cell (BoardIdx.new c r) num) := by
  intro p hp
  have hnum_mem : num ∈ List.range' 1 9 := by
    rw [List.mem_range']
    exact ⟨num - 1, by omega, by omega⟩
  by_cases hpi : p = BoardIdx.new c r
  · subst hpi
    refine ⟨mem_visitOrder_new c r hc hr,
      Or.inr ⟨num, hnum_mem, play_cell_get_self b c r num hc hr, ?_⟩⟩
    intro j hj hpeer hne
    obtain ⟨c2, hc2, r2, hr2, rfl⟩ := visitOrder_dest j hj
    rw [play_cell_get_other b c r num c2 r2 hc hr hc2 hr2 hne, if_pos hpeer]
    exact is_possible_set_false_self _ num (by omega)
  · have hpold : p ∈ b.played := by
      rcases (mem_play_cell_played b _ p num).mp hp with h | h
      · exact absurd h hpi
      · exact h
    obtain ⟨hpv, hrest⟩ := hinv p hpold
    obtain ⟨cp, hcp, rp, hrp, rfl⟩ := visitOrder_dest p hpv
    refine ⟨hpv, ?_⟩
    have hget : (b.play_cell (BoardIdx.new c r) num).get (BoardIdx.new cp rp)
        = if peer (BoardIdx.new cp rp) (BoardIdx.new c r)
          then Cell.set_possible (b.get (BoardIdx.new cp rp)) num false
          else b.get (BoardIdx.new cp rp) :=
      play_cell_get_other b c r num cp rp hc hr hcp hrp hpi
    rcases hrest with hzero | ⟨d, hd, hfix, hclr⟩
    · left
      rw [hget]
      by_cases hpeer : peer (BoardIdx.new cp rp) (BoardIdx.new c r)
      · rw [if_pos hpeer, hzero, set_false_zero]
      · rw [if_neg hpeer]
        exact hzero
    · have hd19 : 1 ≤ d ∧ d ≤ 9 := by
        rw [List.mem_range'] at hd
        obtain ⟨k, hk, rfl⟩ := hd
        omega
      by_cases hpeer : peer (BoardIdx.new cp rp) (BoardIdx.new c r)
      · by_cases hnd : num = d
        · left
          rw [hget, if_pos hpeer, hfix, set_false_fixed d (by omega) num (by omega),
            if_pos hnd]
        · right
          refine ⟨d, hd, ?_, ?_⟩
          · rw [hget, if_pos hpeer, hfix, set_false_fixed d (by omega) num (by omega),
              if_neg hnd]
          · intro j hj hpeerj hnej
            by_cases hji : j = BoardIdx.new c r
            · subst hji
              rw [play_cell_get_self b c r num hc hr, is_possible_fixed]
              simp [hnd]
            · obtain ⟨cj, hcj, rj, hrj, rfl⟩ := visitOrder_dest j hj
              rw [play_cell_get_other b c r num cj rj hc hr hcj hrj hji]
              by_cases hpj : peer (BoardIdx.new cj rj) (BoardIdx.new c r)
              · rw [if_pos hpj]
                exact is_possible_clear_of_false _ num d (hclr _ hj hpeerj hnej)
              · rw [if_neg hpj]
                exact hclr _ hj hpeerj hnej
      · right
        refine ⟨d, hd, by rw [hget, if_neg hpeer]; exact hfix, ?_⟩
        intro j hj hpeerj hnej
        by_cases hji : j = BoardIdx.new c r
        · rw [hji] at hpeerj
          exact absurd (peer_symm _ _ hpeerj) hpeer
        · obtain ⟨cj, hcj, rj, hrj, rfl⟩ := visitOrder_dest j hj
          rw [play_cell_get_other b c r num cj rj hc hr hcj hrj hji]
          by_cases hpj : peer (BoardIdx.new cj rj) (BoardIdx.new c r)
          · rw [if_pos hpj]
            exact is_possible_clear_of_false _ num d (hclr _ hj hpeerj hnej)
          · rw [if_neg hpj]
            exact hclr _ hj hpeerj hnej

theorem board_inv_play_idx (b : Board) (i : BoardIdx) (hi : i ∈ visitOrder) (num : Nat)
    (hn1 : 1 ≤ num) (hn9 : num ≤ 9) (hinv : board_inv b) :
    board_inv (b.play_cell i num) := by
  obtain ⟨c, hc, r, hr, rfl⟩ := visitOrder_dest i hi
  exact board_inv_play b c r num hc hr hn1 hn9 hinv

theorem headD_mem_possibilities (c : Cell) (h1 : c.num_possibilities = 1) :
    c.possibilities.headD 0 ∈ c.possibilities := by
  have hsing := possibilities_singleton c h1
  rw [hsing]
  simp

theorem scanAux_inv :
    ∀ (l : List BoardIdx) (b : Board) (lc : Option BoardIdx) (cnt : Nat)
      (b' : Board) (lc' : Option BoardIdx) (cnt' : Nat),
      scanAux b lc cnt l = some (b', lc', cnt') →
      (∀ i ∈ l, i ∈ visitOrder) → board_inv b → board_inv b' := by
  intro l
  induction l with
  | nil =>
    intro b lc cnt b' lc' cnt' h hv hinv
    unfold scanAux at h
    injection h with h
    injection h with h1 h2
    rw [← h1]
    exact hinv
  | cons i rest ih =>
    intro b lc cnt b' lc' cnt' h hv hinv
    have hv' : ∀ j ∈ rest, j ∈ visitOrder := fun j hj => hv j (List.mem_cons_of_mem _ hj)
    by_cases hp : i ∈ b.played
    · rw [scanAux_cons_played b lc cnt i rest hp] at h
      exact ih b lc cnt b' lc' cnt' h hv' hinv
    · by_cases h0 : (b.get i).num_possibilities = 0
      · rw [scanAux_cons_zero b lc cnt i rest hp h0] at h
        exact absurd h (by simp)
      · by_cases h1 : (b.get i).num_possibilities = 1
        · rw [scanAux_cons_one b lc cnt i rest hp h1] at h
          have hb := possibilities_bounds (b.get i) _ (headD_mem_possibilities _ h1)
          exact ih _ lc cnt b' lc' cnt' h hv'
            (board_inv_play_idx b i (hv i (List.mem_cons_self i rest)) _ hb.1 hb.2 hinv)
        · by_cases h4 : cnt > (b.get i).num_possibilities
          · rw [scanAux_cons_track b lc cnt i rest hp h0 h1 h4] at h
            exact ih b (some i) _ b' lc' cnt' h hv' hinv
          · rw [scanAux_cons_notrack b lc cnt i rest hp h0 h1 h4] at h
            exact ih b lc cnt b' lc' cnt' h hv' hinv

theorem possibilities_zero : Cell.possibilities 0 = [] := by decide

theorem scanAux_some_of_tracked :
    ∀ (l : List BoardIdx) (b : Board) (c0 : BoardIdx) (cnt : Nat)
      (b' : Board) (lc' : Option BoardIdx) (cnt' : Nat),
      scanAux b (some c0) cnt l = some (b', lc', cnt') → ∃ c', lc' = some c' := by
  intro l
  induction l with
  | nil =>
    intro b c0 cnt b' lc' cnt' h
    unfold scanAux at h
    injection h with h
    injection h with h1 h2
    injection h2 with h2 h3
    exact ⟨c0, h2.symm⟩
  | cons i rest ih =>
    intro b c0 cnt b' lc' cnt' h
    by_cases hp : i ∈ b.played
    · rw [scanAux_cons_played b _ cnt i rest hp] at h
      exact ih b c0 cnt b' lc' cnt' h
    · by_cases h0 : (b.get i).num_possibilities = 0
      · rw [scanAux_cons_zero b _ cnt i rest hp h0] at h
        exact absurd h (by simp)
      · by_cases h1 : (b.get i).num_possibilities = 1
        · rw [scanAux_cons_one b _ cnt i rest hp h1] at h
          exact ih _ c0 cnt b' lc' cnt' h
        · by_cases h4 : cnt > (b.get i).num_possibilities
          · rw [scanAux_cons_track b _ cnt i rest hp h0 h1 h4] at h
            exact ih b i _ b' lc' cnt' h
          · rw [scanAux_cons_notrack b _ cnt i rest hp h0 h1 h4] at h
            exact ih b c0 cnt b' lc' cnt' h

theorem verify_true_no_empty (b : Board) (hv : b.verify = true) :
    ∀ i ∈ visitOrder, (b.get i).possibilities ≠ [] := by
  intro i hi he
  obtain ⟨g, hg, hmem⟩ := exists_group_mem i hi
  unfold Board.verify at hv
  rw [List.all_eq_true] at hv
  exact ((checkGroup_iff b g).mp (hv g hg)).1 i hmem he

theorem scanAux_complete :
    ∀ (l : List BoardIdx) (b : Board) (cnt : Nat) (b' : Board) (cnt' : Nat),
      scanAux b none cnt l = some (b', none, cnt') →
      (∀ i ∈ l, i ∈ visitOrder) →
      (∀ i, i ∈ visitOrder → i ∉ l → i ∈ b.played) →
      (∀ i, i ∈ visitOrder → i ∈ b.played → (b.get i).possibilities ≠ []) →
      board_inv b → 9 < cnt →
      (∀ i, i ∈ visitOrder → i ∈ b'.played) ∧
      (∀ i, i ∈ visitOrder → (b'.get i).possibilities ≠ []) := by
  intro l
  induction l with
  | nil =>
    intro b cnt b' cnt' h hval hP0 hnz hinv hcnt
    unfold scanAux at h
    injection h with h
    injection h with h1 h2
    rw [← h1]
    refine ⟨fun i hi => hP0 i hi (List.not_mem_nil i), fun i hi => ?_⟩
    exact hnz i hi (hP0 i hi (List.not_mem_nil i))
  | cons i rest ih =>
    intro b cnt b' cnt' h hval hP0 hnz hinv hcnt
    have hval' : ∀ j ∈ rest, j ∈ visitOrder := fun j hj => hval j (List.mem_cons_of_mem _ hj)
    by_cases hp : i ∈ b.played
    · rw [scanAux_cons_played b none cnt i rest hp] at h
      refine ih b cnt b' cnt' h hval' ?_ hnz hinv hcnt
      intro j hj hjrest
      by_cases hji : j = i
      · rw [hji]; exact hp
      · exact hP0 j hj (by simp [hji, hjrest])
    · by_cases h0 : (b.get i).num_possibilities = 0
      · rw [scanAux_cons_zero b none cnt i rest hp h0] at h
        exact absurd h (by simp)
      · by_cases h1 : (b.get i).num_possibilities = 1
        · rw [scanAux_cons_one b none cnt i rest hp h1] at h
          have hiv : i ∈ visitOrder := hval i (List.mem_cons_self i rest)
          obtain ⟨ci, hci, ri, hri, hieq⟩ := visitOrder_dest i hiv
          subst hieq
          have hbnum := possibilities_bounds _ _ (headD_mem_possibilities _ h1)
          set num := ((b.get (BoardIdx.new ci ri)).possibilities).headD 0 with hnumdef
          have hnumposs : Cell.is_possible (b.get (BoardIdx.new ci ri)) num = true :=
            ((mem_possibilities_iff _ num).mp (headD_mem_possibilities _ h1)).2
          refine ih _ cnt b' cnt' h hval' ?_ ?_
            (board_inv_play_idx b _ hiv num hbnum.1 hbnum.2 hinv) hcnt
          · intro j hj hjrest
            by_cases hji : j = BoardIdx.new ci ri
            · rw [hji, mem_play_cell_played]
              exact Or.inl rfl
            · rw [mem_play_cell_played]
              exact Or.inr (hP0 j hj (by simp [hji, hjrest]))
          · intro j hjv hjp
            by_cases hji : j = BoardIdx.new ci ri
            · rw [hji, play_cell_get_self b ci ri num hci hri,
                possibilities_fixed num hbnum.1 hbnum.2]
              simp
            · have hjold : j ∈ b.played := by
                rcases (mem_play_cell_played b _ j num).mp hjp with hh | hh
                · exact absurd hh hji
                · exact hh
              have hnzj := hnz j hjv hjold
              obtain ⟨-, hrest2⟩ := hinv j hjold
              rcases hrest2 with hzero | ⟨d, hd, hfix, hclr⟩
              · exact absurd (by rw [hzero]; exact possibilities_zero) hnzj
              · have hd19 : 1 ≤ d ∧ d ≤ 9 := by
                  rw [List.mem_range'] at hd
                  obtain ⟨k, hk, rfl⟩ := hd
                  omega
                obtain ⟨cj, hcj, rj, hrj, rfl⟩ := visitOrder_dest j hjv
                rw [play_cell_get_other b ci ri num cj rj hci hri hcj hrj hji]
                by_cases hpeer : peer (BoardIdx.new cj rj) (BoardIdx.new ci ri)
                · have hiclr : Cell.is_possible (b.get (BoardIdx.new ci ri)) d = false :=
                    hclr _ hiv (peer_symm _ _ hpeer) (fun he => hji he.symm)
                  have hnd : num ≠ d := by
                    intro he
                    rw [he, hiclr] at hnumposs
                    exact absurd hnumposs (by simp)
                  rw [if_pos hpeer, hfix,
                    set_false_fixed d (by omega) num (by omega), if_neg hnd,
                    possibilities_fixed d hd19.1 hd19.2]
                  simp
                · rw [if_neg hpeer, hfix, possibilities_fixed d hd19.1 hd19.2]
                  simp
        · have h4 : cnt > (b.get i).num_possibilities := by
            have := num_possibilities_le (b.get i)
            omega
          rw [scanAux_cons_track b none cnt i rest hp h0 h1 h4] at h
          obtain ⟨c', hc'⟩ := scanAux_some_of_tracked rest b i _ b' none cnt' h
          exact absurd hc' (by simp)

theorem fixed_inj (a b : Nat) (h : Cell.fixed a = Cell.fixed b) : a = b := by
  unfold Cell.fixed at h
  rw [Nat.shiftLeft_eq, Nat.shiftLeft_eq, one_mul, one_mul] at h
  exact Nat.pow_right_injective (by norm_num) h

theorem countP_congr_mem {α : Type} (p q : α → Bool) :
    ∀ l : List α, (∀ a ∈ l, p a = q a) → l.countP p = l.countP q := by
  intro l
  induction l with
  | nil => intro h; rfl
  | cons a rest ih =>
    intro h
    rw [List.countP_cons, List.countP_cons, h a (List.mem_cons_self a rest),
      ih (fun x hx => h x (List.mem_cons_of_mem _ hx))]

theorem range'_count_one : ∀ d ∈ List.range' 1 9,
    (List.range' 1 9).countP (fun z => z == d) = 1 := by decide

theorem solved_board_of_inv (b : Board)
    (hinv : board_inv b)
    (hall : ∀ i, i ∈ visitOrder → i ∈ b.played)
    (hnz : ∀ i, i ∈ visitOrder → (b.get i).possibilities ≠ []) :
    solved_board b := by
  have hfix : ∀ i, i ∈ visitOrder → ∃ d ∈ List.range' 1 9, b.get i = Cell.fixed d := by
    intro i hi
    obtain ⟨-, hrest⟩ := hinv i (hall i hi)
    rcases hrest with hzero | ⟨d, hd, hf, -⟩
    · exact absurd (by rw [hzero]; exact possibilities_zero) (hnz i hi)
    · exact ⟨d, hd, hf⟩
  constructor
  · exact fun i hi => ⟨hall i hi, hfix i hi⟩
  · intro g hg d hd
    obtain ⟨hgval, hgnodup, hglen, hgpeer⟩ := group_facts g hg
    have hfd : ∀ i ∈ g, ∃ di ∈ List.range' 1 9, b.get i = Cell.fixed di ∧
        ((b.get i).possibilities).headD 0 = di ∧ (b.get i).possibilities = [di] := by
      intro i hi
      obtain ⟨di, hdi, hfixi⟩ := hfix i (hgval i hi)
      have hdi19 : 1 ≤ di ∧ di ≤ 9 := by
        rw [List.mem_range'] at hdi
        obtain ⟨k, hk, rfl⟩ := hdi
        omega
      have hposs : (b.get i).possibilities = [di] := by
        rw [hfixi]
        exact possibilities_fixed di hdi19.1 hdi19.2
      exact ⟨di, hdi, hfixi, by rw [hposs]; rfl, hposs⟩
    have hdist : ∀ x ∈ g, ∀ y ∈ g, x ≠ y →
        ((b.get x).possibilities).headD 0 ≠ ((b.get y).possibilities).headD 0 := by
      intro x hx y hy hxy
      obtain ⟨dx, hdx, hfx, hfex, hpx⟩ := hfd x hx
      obtain ⟨dy, hdy, hfy, hfey, hpy⟩ := hfd y hy
      rw [hfex, hfey]
      obtain ⟨-, hrest⟩ := hinv x (hall x (hgval x hx))
      rcases hrest with hzero | ⟨d0, hd0, hfx0, hclr⟩
      · exact absurd (by rw [hzero]; exact possibilities_zero) (hnz x (hgval x hx))
      · have hd0x : d0 = dx := fixed_inj d0 dx (by rw [← hfx0, hfx])
        subst hd0x
        have hyp : Cell.is_possible (b.get y) d0 = false :=
          hclr y (hgval y hy) (hgpeer y hy x hx) (fun he => hxy he.symm)
        rw [hfy, is_possible_fixed] at hyp
        simp only [decide_eq_false_iff_not] at hyp
        exact fun he => hyp (he.symm)
    have hds_nodup : (g.map (fun i => ((b.get i).possibilities).headD 0)).Nodup := by
      apply List.Nodup.map_on ?_ hgnodup
      intro x hx y hy hfeq
      by_contra hxy
      exact hdist x hx y hy hxy hfeq
    have hds_sub : (g.map (fun i => ((b.get i).possibilities).headD 0)) ⊆ List.range' 1 9 := by
      intro z hz
      rw [List.mem_map] at hz
      obtain ⟨i, hi, rfl⟩ := hz
      obtain ⟨di, hdi, -, hfei, -⟩ := hfd i hi
      rw [hfei]
      exact hdi
    have hds_len : (g.map (fun i => ((b.get i).possibilities).headD 0)).length = 9 := by
      rw [List.length_map, hglen]
    have hperm : (g.map (fun i => ((b.get i).possibilities).headD 0)).Perm (List.range' 1 9) := by
      apply List.Subperm.perm_of_length_le
      · exact List.subperm_of_subset hds_nodup hds_sub
      · rw [hds_len, List.length_range']
    have hstep1 : g.countP (fun i => (b.get i).possibilities == [d])
        = g.countP (fun i => ((b.get i).possibilities).headD 0 == d) := by
      apply countP_congr_mem
      intro i hi
      obtain ⟨di, hdi, -, hfei, hpi⟩ := hfd i hi
      rw [hpi]
      have hbool : ∀ (x y : Nat), (([x] : List Nat) == [y]) = (x == y) := by
        intro x y
        show List.beq [x] [y] = (x == y)
        rw [List.beq_cons₂]
        simp [List.beq]
      exact hbool di d
    have hstep2 : (g.map (fun i => ((b.get i).possibilities).headD 0)).countP (fun z => z == d)
        = g.countP (fun i => ((b.get i).possibilities).headD 0 == d) := by
      rw [List.countP_map]
      rfl
    rw [hstep1, ← hstep2, hperm.countP_eq]
    exact range'_count_one d hd

theorem solveAux_sound :
    ∀ (fuel : Nat) (b : Board) (b' : Board), board_inv b →
      solveAux fuel b = some b' → solved_board b' := by
  intro fuel
  induction fuel with
  | zero =>
    intro b b' hinv h
    exact absurd h (by simp [solveAux])
  | succ fuel ih =>
    intro b b' hinv h
    rw [solveAux_succ] at h
    by_cases hv : b.verify
    · rw [if_pos hv] at h
      cases hscan : scanAux b none usize_max visitOrder with
      | none => rw [hscan] at h; exact absurd h (by simp)
      | some res =>
        obtain ⟨b1, lc1, cnt1⟩ := res
        rw [hscan] at h
        cases lc1 with
        | none =>
          injection h with h
          subst h
          have husize : 9 < usize_max := by
            have he : (18446744073709551615 : Nat) = usize_max := by norm_num [usize_max]
            omega
          obtain ⟨hall, hnz⟩ := scanAux_complete visitOrder b usize_max b1 cnt1 hscan
            (fun i hi => hi) (fun i hi hni => absurd hi hni)
            (fun i hi _ => verify_true_no_empty b hv i hi) hinv husize
          exact solved_board_of_inv b1
            (scanAux_inv visitOrder b none usize_max b1 none cnt1 hscan (fun i hi => hi) hinv)
            hall hnz
        | some next =>
          obtain ⟨p, hpmem, hpeq⟩ := List.exists_of_findSome?_eq_some h
          have hinv1 : board_inv b1 :=
            scanAux_inv visitOrder b none usize_max b1 (some next) cnt1 hscan
              (fun i hi => hi) hinv
          have htrack := scanAux_tracked visitOrder b none usize_max b1 (some next) cnt1
            hscan (fun i hi => hi) visitOrder_nodup
            (fun c hc => absurd hc (by simp)) next rfl
          have hpb := possibilities_bounds (b1.get next) p hpmem
          exact ih (b1.play_cell next p) b'
            (board_inv_play_idx b1 next htrack.1 p hpb.1 hpb.2 hinv1) hpeq
    · rw [if_neg hv] at h
      exact absurd h (by simp)

/-- C1 (amended): for every input board satisfying the `play_cell` invariant
`board_inv` — which holds for every board built from `Board::new` by
`play_cell` calls, hence for every parsed board — if `solve` returns a
board, then in that board all 81 cells are played committed singletons and
each of the 27 groups contains each digit 1–9 exactly once. -/
theorem c1_solve_sound (b : Board) (hinv : board_inv b) :
    ∀ b', solve b = some b' → solved_board b' :=
  fun b' h => solveAux_sound 82 b b' hinv h

set_option maxRecDepth 8192 in
/-- C1 counterexample: the claim as stated — over every input board — is
false: `B0cex` passes `verify`, yet `solve` returns a board (the scan
commits two forced cells whose propagation wipes two played singletons)
that is not a valid full solution. -/
theorem c1_counterexample :
    (solve B0cex).map (fun b => decide (solved_board b)) = some false := by decide

set_option maxRecDepth 8192 in
theorem c1_solve_sound_witness : solved_board solvedBoard :=
  c1_solve_sound solvedBoard (by decide) solvedBoard
    (solve_all_played solvedBoard (fun i hi => hi) (by decide))

theorem filterMap_filter_isSome {α β : Type} (f : α → Option β) :
    ∀ s : List α, (s.filter (fun c => (f c).isSome)).filterMap f = s.filterMap f := by
  intro s
  induction s with
  | nil => rfl
  | cons c rest ih =>
    cases h : f c with
    | none =>
      simp only [List.filter_cons, List.filterMap_cons, h, Option.isSome_none,
        Bool.false_eq_true, if_false]
      exact ih
    | some v =>
      simp only [List.filter_cons, List.filterMap_cons, h, Option.isSome_some, if_true]
      rw [ih]

theorem rowMajor_enum_eq :
    rowMajorOrder.enum = (List.range 81).map (fun k => (k, BoardIdx.new (k % 9) (k / 9))) := by
  decide

/-- C8: `from_str` maps `'1'`–`'9'` (case-insensitively) to clues played at
successive cells in row-major order, treats `'x'`/`'X'` as explicitly empty,
and ignores every other character, with all cells beyond the supplied
clues left empty (the refinement against the spec-worded `fromStrSpec`);
consequently parsing any string gives exactly the same board as parsing the
string with all ignored characters removed. -/
theorem c8_from_str (s : List Char) :
    from_str s = fromStrSpec s ∧
    from_str s = from_str (s.filter (fun c => (charToClue c).isSome)) := by
  constructor
  · unfold from_str fromStrSpec
    rw [rowMajor_enum_eq, List.foldl_map]
  · unfold from_str
    rw [filterMap_filter_isSome charToClue s]

theorem getD_append_left {α : Type} (l₁ l₂ : List α) (n : Nat) (d : α)
    (h : n < l₁.length) : (l₁ ++ l₂).getD n d = l₁.getD n d := by
  rw [List.getD_eq_getElem?_getD, List.getD_eq_getElem?_getD,
    List.getElem?_append_left h]

theorem foldl_congr_mem {α β : Type} (f g : β → α → β) :
    ∀ (l : List α) (init : β), (∀ acc a, a ∈ l → f acc a = g acc a) →
      l.foldl f init = l.foldl g init := by
  intro l
  induction l with
  | nil => intro init h; rfl
  | cons a rest ih =>
    intro init h
    rw [List.foldl_cons, List.foldl_cons, h init a (List.mem_cons_self a rest)]
    exact ih _ (fun acc x hx => h acc x (List.mem_cons_of_mem _ hx))

theorem enum_lt_81 : ∀ p ∈ rowMajorOrder.enum, p.1 < 81 := by decide

/-- C10: `from_str` is total — modelled as a total function on arbitrary
character lists — and significant characters beyond the 81st have no
effect: once a string already supplies 81 digit/placeholder characters,
appending anything leaves the parsed board unchanged. -/
theorem c10_from_str_total (s t : List Char)
    (h : 81 ≤ (s.filterMap charToClue).length) :
    from_str (s ++ t) = from_str s := by
  unfold from_str
  rw [List.filterMap_append]
  apply foldl_congr_mem
  intro acc p hp
  have hk := enum_lt_81 p hp
  rw [getD_append_left _ _ p.1 (-1) (by omega)]

theorem c10_from_str_total_witness :
    from_str (List.replicate 81 'x' ++ ('5' :: '!' :: [])) = from_str (List.replicate 81 'x') :=
  c10_from_str_total (List.replicate 81 'x') ('5' :: '!' :: []) (by decide)
